import Mathlib

/-!
Verification of the block-template assembly core of the qitmeer mining
service (`services/mining/newblocktemplate.go`).

The Go code is shallowly embedded: the mutable state of `NewBlockTemplate`
becomes explicit records, Go maps become association lists (iteration in
insertion order), `uint32` arithmetic is `Nat` with an explicit `% 2 ^ 32`
at the points where the Go code adds `uint32` values, and every external
collaborator (chain engine, mempool oracle, script validator, subsidy and
difficulty oracles) is a field of an `Env` record, so that a run of the
model is a pure function of the environment.

Functions implemented in `newblocktemplate.go` itself (`NewBlockTemplate`,
`mergeUtxoView`, `spendTransaction`, the mempool scan and the selection
loop) are translated line by line.  Collaborators that live elsewhere in
the repository are modelled from the specification and carry a
`Modelled from the spec:` doc comment.
-/

namespace QitmeerMining

/-- Transaction identifier (`hash.Hash`), abstracted to a natural number. -/
abbrev THash := Nat

/-- A reference to an output of a previous transaction (`types.TxOutPoint`):
the hash of the producing transaction and the output index. -/
structure OutPoint where
  hash : THash
  index : Nat
deriving DecidableEq, Repr

/-- A transaction output: an amount (`uint64`) and a pk-script. -/
structure TxOut where
  amount : Nat
  pkScript : List Nat
deriving DecidableEq, Repr

/-- A transaction as the assembly core sees it: its identifying hash, the
serialized size reported by `SerializeSize`, the coinbase flag reported by
`IsCoinBase`, and its inputs (only the `PreviousOut` of each `TxIn`
matters to the core) and outputs. -/
structure Tx where
  hash : THash
  serializeSize : Nat
  isCoinBase : Bool
  txIn : List OutPoint
  txOut : List TxOut
deriving DecidableEq, Repr

/-- A mempool descriptor (`mining.TxDesc`): the transaction together with
the mempool-reported fee (base units) and fee density (base units per kB). -/
structure TxDesc where
  tx : Tx
  fee : Int
  feePerKB : Int
deriving DecidableEq, Repr

/-- Mining policy tunables (`mining.Policy`).  `BlockMinSize`,
`BlockMaxSize` and `BlockPrioritySize` are `uint32` in Go; `TxMinFreeFee`
is converted to `int64` at its only use site, so it is an `Int` here. -/
structure Policy where
  BlockMinSize : Nat
  BlockMaxSize : Nat
  BlockPrioritySize : Nat
  TxMinFreeFee : Int
deriving DecidableEq, Repr

/-- An entry of a UTXO viewpoint (`blockchain.UtxoEntry`): the amount and
the spent flag (`IsSpent`).  `Spend` flips the flag. -/
structure UtxoEntry where
  amount : Nat
  spent : Bool
deriving DecidableEq, Repr

/-- A UTXO viewpoint (`blockchain.UtxoViewpoint`): a map from outpoints to
entries, embedded as an association list. -/
abbrev UtxoView := List (OutPoint × UtxoEntry)

/-- Association-list lookup (Go map read). -/
def alookup {α β : Type} [DecidableEq α] : List (α × β) → α → Option β
  | [], _ => none
  | (k, v) :: rest, a => if a = k then some v else alookup rest a

/-- Association-list write (Go map write): replace the first binding of
the key if present, otherwise append a new binding. -/
def aupsert {α β : Type} [DecidableEq α] : List (α × β) → α → β → List (α × β)
  | [], a, b => [(a, b)]
  | (k, v) :: rest, a, b =>
    if a = k then (k, b) :: rest else (k, v) :: aupsert rest a b

/-- Association-list delete (Go map delete): remove the first binding of
the key. -/
def aerase {α β : Type} [DecidableEq α] : List (α × β) → α → List (α × β)
  | [], _ => []
  | (k, v) :: rest, a => if a = k then rest else (k, v) :: aerase rest a

theorem alookup_cons_self {α β : Type} [DecidableEq α] (k : α) (v : β)
    (rest : List (α × β)) : alookup ((k, v) :: rest) k = some v := by
  simp [alookup]

theorem alookup_cons_ne {α β : Type} [DecidableEq α] {a k : α} (v : β)
    (rest : List (α × β)) (h : a ≠ k) :
    alookup ((k, v) :: rest) a = alookup rest a := by
  simp [alookup, h]

theorem aerase_cons_self {α β : Type} [DecidableEq α] (k : α) (v : β)
    (rest : List (α × β)) : aerase ((k, v) :: rest) k = rest := by
  simp [aerase]

theorem aerase_cons_ne {α β : Type} [DecidableEq α] {a k : α} (v : β)
    (rest : List (α × β)) (h : a ≠ k) :
    aerase ((k, v) :: rest) a = (k, v) :: aerase rest a := by
  simp [aerase, h]

theorem aupsert_cons_self {α β : Type} [DecidableEq α] (k : α) (v b : β)
    (rest : List (α × β)) : aupsert ((k, v) :: rest) k b = (k, b) :: rest := by
  simp [aupsert]

theorem aupsert_cons_ne {α β : Type} [DecidableEq α] {a k : α} (v b : β)
    (rest : List (α × β)) (h : a ≠ k) :
    aupsert ((k, v) :: rest) a b = (k, v) :: aupsert rest a b := by
  simp [aupsert, h]

/-- The per-candidate metadata cached by the selection engine
(`mining.WeightedRandTx` without the `dependsOn` map, which the model
keeps in the waiting store): the transaction, the mempool fee, the fee
density and the computed priority.  Go stores the priority as a
`float64`; only its order matters to the core, so it is an `Int` here. -/
structure Cand where
  tx : Tx
  fee : Int
  feePerKB : Int
  priority : Int
deriving DecidableEq, Repr

/-- Modelled from the spec: the ordering key of the weighted priority
queue, whose implementation (`weightedRandQueue`) is not under `src/`.
Per the spec the queue orders on `(priority desc, fee_per_kb desc)` in
priority-first mode and on `(fee_per_kb desc, priority desc)` in
fee-first mode, deterministically.  `queueLess a b` holds when `b`
strictly beats `a` under the key of the current mode. -/
def queueLess (byFee : Bool) (a b : Cand) : Bool :=
  if byFee then
    decide (a.feePerKB < b.feePerKB) ||
      (decide (a.feePerKB = b.feePerKB) && decide (a.priority < b.priority))
  else
    decide (a.priority < b.priority) ||
      (decide (a.priority = b.priority) && decide (a.feePerKB < b.feePerKB))

/-- Modelled from the spec: `Pop` of the weighted priority queue.  Scans
the queue (kept in insertion order) for the maximum under the current
key, breaking ties towards the earliest inserted, and returns the chosen
candidate together with the remaining queue. -/
def pickMax (byFee : Bool) : Cand → List Cand → Cand × List Cand
  | best, [] => (best, [])
  | best, c :: rest =>
    if queueLess byFee best c then
      let (m, others) := pickMax byFee c rest
      (m, best :: others)
    else
      let (m, others) := pickMax byFee best rest
      (m, c :: others)

theorem pickMax_snd_length (byFee : Bool) (c : Cand) (xs : List Cand) :
    (pickMax byFee c xs).2.length = xs.length := by
  induction xs generalizing c with
  | nil => simp [pickMax]
  | cons x rest ih =>
    simp only [pickMax]
    split
    · simp [ih]
    · simp [ih]

/-- An opaque Go `error` value produced by an external collaborator,
abstracted to a code. -/
abbrev GoErr := Nat

/-- The error codes of the mining rule errors raised in
`newblocktemplate.go` (`mining.ErrorCode`). -/
inductive ErrorCode where
  | ErrCreatingCoinbase
  | ErrGettingDifficulty
  | ErrTransactionAppend
  | ErrCheckConnectBlock
deriving DecidableEq, Repr

/-- An error as returned by `NewBlockTemplate`: either an error of a
collaborator propagated as-is (`return nil, err`), or a mining rule error
built with `miningRuleError(code, err.Error())`. -/
inductive MiningErr where
  | raw (e : GoErr)
  | rule (code : ErrorCode) (e : GoErr)
deriving DecidableEq, Repr

/-- The proof-of-work algorithm identifiers for which `NewBlockTemplate`
queries a difficulty target (`pow.BLAKE2BD`, `pow.X16RV3`, `pow.X8R16`,
`pow.QITMEERKECCAK256`, `pow.CUCKAROO`, `pow.CUCKAROOM`, `pow.CUCKATOO`). -/
inductive PowType where
  | BLAKE2BD | X16RV3 | X8R16 | QITMEERKECCAK256 | CUCKAROO | CUCKAROOM | CUCKATOO
deriving DecidableEq, Repr

/-- The external collaborators consumed by `NewBlockTemplate`, bundled as
a record so that one assembly invocation is a pure function of the
environment.  Fallible collaborators return `Except GoErr`; per the
spec's concurrency model all reads are point-in-time consistent for the
duration of one assembly, so each collaborator is a fixed function. -/
structure Env where
  /-- Committed chain UTXO set backing `FetchUtxoView`: the entry of an
  outpoint, or `none` when the chain has no such output. -/
  chain : OutPoint → Option UtxoEntry
  /-- `txSource.HaveTransaction`: whether the mempool holds the
  transaction with the given hash. -/
  haveTx : THash → Bool
  /-- `blockchain.IsFinalizedTransaction` at the next height and the
  adjusted time of this invocation. -/
  isFinalized : Tx → Bool
  /-- Whether `FetchUtxoView` fails for the given transaction (the scan
  skips the transaction on error). -/
  fetchViewFails : Tx → Bool
  /-- `mempool.CalcPriority` at the next height, as a function of the
  transaction (the view and DAG arguments are fixed per invocation). -/
  calcPriority : Tx → Int
  /-- `blockchain.CountSigOps`. -/
  countSigOps : Tx → Nat
  /-- The chain constant `blockchain.MaxSigOpsPerBlock`. -/
  maxSigOpsPerBlock : Nat
  /-- `blockchain.CheckTransactionInputs` against the given view:
  `true` when the check passes. -/
  checkTransactionInputs : Tx → UtxoView → Bool
  /-- `blockchain.ValidateTransactionScripts` against the given view:
  `true` when validation passes. -/
  validateTransactionScripts : Tx → UtxoView → Bool
  /-- `txscript.IsUnspendable` on a pk-script, used by `AddTxOuts` to
  skip provably unspendable outputs. -/
  provablyUnspendable : List Nat → Bool
  /-- The compile-time constant `blockHeaderOverhead` of the mining
  package. -/
  blockHeaderOverhead : Nat
  /-- `policy.StandardVerifyFlags()`. -/
  standardVerifyFlags : Except GoErr Unit
  /-- `serialization.RandomUint64()`: the extra nonce. -/
  randomUint64 : Except GoErr Nat
  /-- The mining tips returned by `GetMiningTips` when the caller passes
  no parents. -/
  getMiningTips : List THash
  /-- Height of the main chain tip (`GetMainChainTip().GetHeight()`). -/
  mainChainTipHeight : Nat
  /-- Height of the main parent of a caller-supplied parent set
  (`GetMainParent(...).GetHeight()`). -/
  mainParentHeight : List THash → Nat
  /-- `GetBlues` of the parent set. -/
  blues : List THash → Int
  /-- `standardCoinbaseScript(nextBlockHeight, extraNonce)`. -/
  standardCoinbaseScript : Nat → Nat → Except GoErr (List Nat)
  /-- `standardCoinbaseOpReturn([]byte{})`. -/
  standardCoinbaseOpReturn : Except GoErr (List Nat)
  /-- `createCoinbaseTx(subsidyCache, script, opReturn, blues, addr, params)`:
  the coinbase transaction, already carrying its subsidy output. -/
  createCoinbaseTx : List Nat → List Nat → Int → Except GoErr Tx
  /-- Modelled from the spec: `fillWitnessToCoinBase(blockTxns)` is not
  under `src/`; per the spec it fills witness commitments into the
  coinbase, a no-op when there are none, and may fail.  The model keeps
  only its error result. -/
  fillWitness : Except GoErr Unit
  /-- `MedianAdjustedTime`. -/
  medianTime : Nat
  /-- `CalcNextRequiredDifficulty(ts, powType)`. -/
  calcDifficulty : PowType → Except GoErr Nat
  /-- `BlockVersion(params.Net)`. -/
  blockVersion : Nat
  /-- `block.AddParent(pb)`: the error it returns for a parent, if any. -/
  addParentErr : THash → Option GoErr
  /-- `block.AddTransaction(tx.Transaction())`: the error it returns for
  a transaction, if any. -/
  addTransactionErr : Tx → Option GoErr
  /-- `CheckConnectBlockTemplate(sblock)`. -/
  checkConnect : Except GoErr Unit
  /-- `bm.GetCurrentTemplate()`: the height of the currently cached
  template, if one is cached. -/
  curTemplateHeight : Option Nat
  /-- `best.GraphState.GetTotal()`: the next block order. -/
  graphStateTotal : Nat
  /-- Whether `payToAddress` is non-nil. -/
  validPayAddress : Bool

/-- Modelled from the spec: `blockManager.GetChain().FetchUtxoView(tx)`
(not under `src/`) returns a view holding the committed entries
referenced by the transaction's inputs; per the spec each fetch is a
per-tx delta of the point-in-time committed view. -/
def fetchUtxoView (env : Env) (tx : Tx) : UtxoView :=
  tx.txIn.filterMap (fun p => (env.chain p).map (fun e => (p, e)))

/-- `mergeUtxoView(viewA, viewB)` from `newblocktemplate.go`: adds all
entries of `viewB` to `viewA`, replacing an entry of `viewA` only when it
is absent or fully spent. -/
def mergeUtxoView (viewA viewB : UtxoView) : UtxoView :=
  viewB.foldl
    (fun acc pe =>
      match alookup acc pe.1 with
      | none => aupsert acc pe.1 pe.2
      | some entryA => if entryA.spent then aupsert acc pe.1 pe.2 else acc)
    viewA

/-- `blockchain.UtxoViewpoint.AddTxOuts(tx, blockHash)` as used by
`spendTransaction`: adds an unspent entry for every output of the
transaction that is not provably unspendable.  Modelled from the spec
(the method is not under `src/`): fresh entries are keyed by the
transaction hash and the output index. -/
def addTxOuts (env : Env) (view : UtxoView) (tx : Tx) : UtxoView :=
  (List.range tx.txOut.length).foldl
    (fun acc i =>
      match tx.txOut[i]? with
      | none => acc
      | some out =>
        if env.provablyUnspendable out.pkScript then acc
        else aupsert acc ⟨tx.hash, i⟩ { amount := out.amount, spent := false })
    view

/-- `spendTransaction(utxoView, tx, blockHash)` from
`newblocktemplate.go`: marks the entries of the inputs of the
transaction as spent (silently skipping inputs with no entry in the
view), adds the transaction's outputs, and returns `nil`.  The result is
the pair (updated view, returned error). -/
def spendTransaction (env : Env) (view : UtxoView) (tx : Tx) :
    UtxoView × Option GoErr :=
  let spentView := tx.txIn.foldl
    (fun acc p =>
      match alookup acc p with
      | none => acc
      | some e => aupsert acc p { e with spent := true })
    view
  (addTxOuts env spentView tx, none)

/-- The dependency map `dependers` of `NewBlockTemplate`:
`map[hash.Hash]map[hash.Hash]*WeightedRandTx`, keyed by predecessor hash;
each inner map is keyed by the dependent transaction's hash.  The model
identifies the pointed-to `WeightedRandTx` structure by the index of its
descriptor in the mempool snapshot, so that Go's pointer sharing (one
structure referenced from several inner maps) is preserved. -/
abbrev Dependers := List (THash × List (THash × Nat))

/-- The waiting store: for every `WeightedRandTx` structure that is not
in the queue (because its `dependsOn` map is non-empty), keyed by its
descriptor index, the candidate metadata and the hashes remaining in its
`dependsOn` map. -/
abbrev Waiting := List (Nat × Cand × List THash)

/-- State accumulated by the mempool admission pass of
`NewBlockTemplate` (lines 178-263). -/
structure ScanState where
  queue : List Cand
  waiting : Waiting
  dependers : Dependers
  blockUtxos : UtxoView
deriving Repr

/-- One step of the input loop of the admission pass (lines 210-241):
`true` when the entry is absent or spent (`entry == nil || entry.IsSpent()`). -/
def entryUnavailable : Option UtxoEntry → Bool
  | none => true
  | some e => e.spent

/-- The input loop of the admission pass (lines 210-241) for one
candidate: walks the inputs, registering a dependency (in `dependers`
and in the candidate's `dependsOn` set) for every input that resolves
neither in the fetched view nor unspent, but is present in the mempool;
aborts the whole candidate (`continue mempoolLoop`) when an input is
unavailable and the mempool does not hold it either, keeping the
registrations already made.  Returns the updated dependency map, the
accumulated `dependsOn` set and the dropped flag. -/
def scanInputs (env : Env) (utxos : UtxoView) (txHash : THash) (idx : Nat) :
    List OutPoint → Dependers → List THash → Dependers × List THash × Bool
  | [], dependers, dependsOn => (dependers, dependsOn, false)
  | p :: rest, dependers, dependsOn =>
    if entryUnavailable (alookup utxos p) then
      if env.haveTx p.hash then
        let deps := (alookup dependers p.hash).getD []
        let dependers' := aupsert dependers p.hash (aupsert deps txHash idx)
        let dependsOn' :=
          if p.hash ∈ dependsOn then dependsOn else dependsOn ++ [p.hash]
        scanInputs env utxos txHash idx rest dependers' dependsOn'
      else
        (dependers, dependsOn, true)
    else
      scanInputs env utxos txHash idx rest dependers dependsOn

/-- One iteration of the admission pass (lines 179-263) for the
descriptor at index `idx`: skip coinbases and non-finalized
transactions, skip on a failed view fetch, classify the inputs, then —
unless the candidate was dropped — record priority and fees, push the
candidate when it has no dependencies, and merge the fetched view into
the block view.  A dropped candidate keeps its partial registrations:
its structure (with the Go zero values for fee, fee density and
priority) stays reachable from `dependers`. -/
def scanTx (env : Env) (st : ScanState) (idx : Nat) (d : TxDesc) : ScanState :=
  let tx := d.tx
  if tx.isCoinBase then st
  else if ¬ env.isFinalized tx then st
  else if env.fetchViewFails tx then st
  else
    let utxos := fetchUtxoView env tx
    let scanned := scanInputs env utxos tx.hash idx tx.txIn st.dependers []
    let dependers' := scanned.1
    let dependsOn := scanned.2.1
    let dropped := scanned.2.2
    if dropped then
      { st with
        dependers := dependers'
        waiting :=
          if dependsOn.isEmpty then st.waiting
          else st.waiting ++ [(idx, { tx := tx, fee := 0, feePerKB := 0, priority := 0 }, dependsOn)] }
    else
      let cand : Cand :=
        { tx := tx, fee := d.fee, feePerKB := d.feePerKB, priority := env.calcPriority tx }
      { queue := if dependsOn.isEmpty then st.queue ++ [cand] else st.queue
        waiting :=
          if dependsOn.isEmpty then st.waiting
          else st.waiting ++ [(idx, cand, dependsOn)]
        dependers := dependers'
        blockUtxos := mergeUtxoView st.blockUtxos utxos }

/-- The admission pass over the whole snapshot, in snapshot order. -/
def scanMempool (env : Env) (sourceTxns : List TxDesc) : ScanState :=
  go 0 sourceTxns { queue := [], waiting := [], dependers := [], blockUtxos := [] }
where
  go (idx : Nat) : List TxDesc → ScanState → ScanState
    | [], st => st
    | d :: rest, st => go (idx + 1) rest (scanTx env st idx d)

/-- One step of the release phase (lines 364-371) for one entry of the
inner dependency map: if the pointed-to structure is still waiting,
remove the included hash from its `dependsOn` set
(`delete(item.dependsOn, *tx.Hash())`), and when the set becomes empty
push the candidate into the queue.  A structure that is no longer in the
waiting store was already released; Go's delete-and-length-check is then
a no-op. -/
def releaseStep (tHash : THash) (wq : Waiting × List Cand) (dep : THash × Nat) :
    Waiting × List Cand :=
  match alookup wq.1 dep.2 with
  | none => wq
  | some (c, dl) =>
    if (dl.erase tHash).isEmpty then (aerase wq.1 dep.2, wq.2 ++ [c])
    else (aupsert wq.1 dep.2 (c, dl.erase tHash), wq.2)

/-- The release phase (lines 361-372): `for _, item := range deps`,
iterating the inner map in insertion order. -/
def releaseDeps (tHash : THash) (deps : List (THash × Nat))
    (waiting : Waiting) (queue : List Cand) : Waiting × List Cand :=
  deps.foldl (releaseStep tHash) (waiting, queue)

/-- Termination measure contribution of the waiting store: one unit per
waiting structure plus one per remaining dependency. -/
def mwaiting : Waiting → Nat
  | [] => 0
  | (_, _, dl) :: rest => (1 + dl.length) + mwaiting rest

theorem mwaiting_aerase {w : Waiting} {i : Nat} {c : Cand} {dl : List THash}
    (h : alookup w i = some (c, dl)) :
    mwaiting (aerase w i) + (1 + dl.length) = mwaiting w := by
  induction w with
  | nil => simp [alookup] at h
  | cons e rest ih =>
    obtain ⟨k, v⟩ := e
    by_cases hk : i = k
    · subst hk
      rw [alookup_cons_self] at h
      obtain rfl : v = (c, dl) := by exact Option.some.inj h
      rw [aerase_cons_self]
      simp [mwaiting]
      omega
    · rw [alookup_cons_ne _ _ hk] at h
      rw [aerase_cons_ne _ _ hk]
      obtain ⟨kc, kdl⟩ := v
      simp only [mwaiting]
      have := ih h
      omega

theorem mwaiting_aupsert_le {w : Waiting} {i : Nat} {c : Cand} {dl : List THash}
    (c' : Cand) {dl' : List THash} (h : alookup w i = some (c, dl))
    (hlen : dl'.length ≤ dl.length) :
    mwaiting (aupsert w i (c', dl')) ≤ mwaiting w := by
  induction w with
  | nil => simp [alookup] at h
  | cons e rest ih =>
    obtain ⟨k, v⟩ := e
    by_cases hk : i = k
    · subst hk
      rw [alookup_cons_self] at h
      obtain rfl : v = (c, dl) := by exact Option.some.inj h
      rw [aupsert_cons_self]
      simp only [mwaiting]
      omega
    · rw [alookup_cons_ne _ _ hk] at h
      rw [aupsert_cons_ne _ _ _ hk]
      obtain ⟨kc, kdl⟩ := v
      simp only [mwaiting]
      have := ih h
      omega

theorem releaseStep_measure (tHash : THash) (wq : Waiting × List Cand)
    (dep : THash × Nat) :
    (releaseStep tHash wq dep).2.length + mwaiting (releaseStep tHash wq dep).1 ≤
      wq.2.length + mwaiting wq.1 := by
  unfold releaseStep
  cases h : alookup wq.1 dep.2 with
  | none => simp
  | some cdl =>
    obtain ⟨c, dl⟩ := cdl
    simp only
    split
    · have := mwaiting_aerase h
      simp only [List.length_append, List.length_cons, List.length_nil]
      omega
    · have herase : (dl.erase tHash).length ≤ dl.length :=
        (List.erase_sublist tHash dl).length_le
      have := mwaiting_aupsert_le c h herase
      dsimp only
      omega

theorem releaseDeps_measure (tHash : THash) (deps : List (THash × Nat))
    (waiting : Waiting) (queue : List Cand) :
    (releaseDeps tHash deps waiting queue).2.length +
        mwaiting (releaseDeps tHash deps waiting queue).1 ≤
      queue.length + mwaiting waiting := by
  unfold releaseDeps
  induction deps generalizing waiting queue with
  | nil => simp
  | cons d rest ih =>
    simp only [List.foldl_cons]
    calc (rest.foldl (releaseStep tHash) (releaseStep tHash (waiting, queue) d)).2.length +
          mwaiting (rest.foldl (releaseStep tHash) (releaseStep tHash (waiting, queue) d)).1
        ≤ (releaseStep tHash (waiting, queue) d).2.length +
            mwaiting (releaseStep tHash (waiting, queue) d).1 := by
          have := ih (releaseStep tHash (waiting, queue) d).1
            (releaseStep tHash (waiting, queue) d).2
          simpa using this
      _ ≤ queue.length + mwaiting waiting := releaseStep_measure tHash (waiting, queue) d

theorem alookup_mem {α β : Type} [DecidableEq α] {w : List (α × β)} {k : α}
    {v : β} (h : alookup w k = some v) : (k, v) ∈ w := by
  induction w with
  | nil => simp [alookup] at h
  | cons e rest ih =>
    obtain ⟨a, b⟩ := e
    by_cases hk : k = a
    · subst hk
      rw [alookup_cons_self] at h
      obtain rfl : b = v := Option.some.inj h
      exact List.mem_cons_self _ _
    · rw [alookup_cons_ne _ _ hk] at h
      exact List.mem_cons_of_mem _ (ih h)

theorem aerase_subset {α β : Type} [DecidableEq α] (w : List (α × β)) (k : α) :
    ∀ e ∈ aerase w k, e ∈ w := by
  induction w with
  | nil => simp [aerase]
  | cons x rest ih =>
    obtain ⟨a, b⟩ := x
    by_cases hk : k = a
    · subst hk
      rw [aerase_cons_self]
      intro e he
      exact List.mem_cons_of_mem _ he
    · rw [aerase_cons_ne _ _ hk]
      intro e he
      rcases List.mem_cons.mp he with h | h
      · exact h ▸ List.mem_cons_self _ _
      · exact List.mem_cons_of_mem _ (ih e h)

theorem aupsert_mem {α β : Type} [DecidableEq α] (w : List (α × β)) (k : α)
    (v : β) : ∀ e ∈ aupsert w k v, e = (k, v) ∨ e ∈ w := by
  induction w with
  | nil =>
    intro e he
    simp [aupsert] at he
    exact Or.inl he
  | cons x rest ih =>
    obtain ⟨a, b⟩ := x
    by_cases hk : k = a
    · subst hk
      rw [aupsert_cons_self]
      intro e he
      rcases List.mem_cons.mp he with h | h
      · exact Or.inl h
      · exact Or.inr (List.mem_cons_of_mem _ h)
    · rw [aupsert_cons_ne _ _ _ hk]
      intro e he
      rcases List.mem_cons.mp he with h | h
      · exact Or.inr (h ▸ List.mem_cons_self _ _)
      · rcases ih e h with h1 | h1
        · exact Or.inl h1
        · exact Or.inr (List.mem_cons_of_mem _ h1)

theorem alookup_aupsert_self {α β : Type} [DecidableEq α] (w : List (α × β))
    (k : α) (v : β) : alookup (aupsert w k v) k = some v := by
  induction w with
  | nil => simp [aupsert, alookup]
  | cons x rest ih =>
    obtain ⟨a, b⟩ := x
    by_cases hk : k = a
    · subst hk
      rw [aupsert_cons_self, alookup_cons_self]
    · rw [aupsert_cons_ne _ _ _ hk, alookup_cons_ne _ _ hk]
      exact ih

theorem alookup_aupsert_ne {α β : Type} [DecidableEq α] (w : List (α × β))
    (k k' : α) (v : β) (h : k' ≠ k) :
    alookup (aupsert w k v) k' = alookup w k' := by
  induction w with
  | nil => simp [aupsert, alookup, h]
  | cons x rest ih =>
    obtain ⟨a, b⟩ := x
    by_cases hk : k = a
    · subst hk
      rw [aupsert_cons_self, alookup_cons_ne _ _ h, alookup_cons_ne _ _ h]
    · rw [aupsert_cons_ne _ _ _ hk]
      by_cases hk2 : k' = a
      · subst hk2
        rw [alookup_cons_self, alookup_cons_self]
      · rw [alookup_cons_ne _ _ hk2, alookup_cons_ne _ _ hk2]
        exact ih

theorem pickMax_fst_mem (byFee : Bool) (c : Cand) (xs : List Cand) :
    (pickMax byFee c xs).1 ∈ c :: xs := by
  induction xs generalizing c with
  | nil => simp [pickMax]
  | cons x rest ih =>
    simp only [pickMax]
    split
    · have := ih x
      rcases List.mem_cons.mp this with h | h
      · simp [h]
      · simp [List.mem_cons_of_mem, h]
    · have := ih c
      rcases List.mem_cons.mp this with h | h
      · simp [h]
      · simp [List.mem_cons_of_mem, h]

theorem pickMax_snd_subset (byFee : Bool) (c : Cand) (xs : List Cand) :
    ∀ x ∈ (pickMax byFee c xs).2, x ∈ c :: xs := by
  induction xs generalizing c with
  | nil => simp [pickMax]
  | cons y rest ih =>
    simp only [pickMax]
    split
    · intro x hx
      simp only at hx
      rcases List.mem_cons.mp hx with h | h
      · simp [h]
      · have := ih y x h
        rcases List.mem_cons.mp this with h2 | h2
        · simp [h2]
        · simp [List.mem_cons_of_mem, h2]
    · intro x hx
      simp only at hx
      rcases List.mem_cons.mp hx with h | h
      · simp [h]
      · have := ih c x h
        rcases List.mem_cons.mp this with h2 | h2
        · simp [h2]
        · simp [List.mem_cons_of_mem, h2]


/-- The release phase only moves candidates from the waiting store into
the queue: a property of all waiting candidates and of all queued
candidates is preserved by one release step. -/
theorem releaseStep_preserve (Pc : Cand → Prop) (tHash : THash)
    (wq : Waiting × List Cand) (dep : THash × Nat)
    (hw : ∀ e ∈ wq.1, Pc e.2.1) (hq : ∀ x ∈ wq.2, Pc x) :
    (∀ e ∈ (releaseStep tHash wq dep).1, Pc e.2.1) ∧
    (∀ x ∈ (releaseStep tHash wq dep).2, Pc x) := by
  cases h : alookup wq.1 dep.2 with
  | none =>
    simp only [releaseStep, h]
    exact ⟨hw, hq⟩
  | some cdl =>
    obtain ⟨c, dl⟩ := cdl
    have hc : Pc c := hw _ (alookup_mem h)
    simp only [releaseStep, h]
    split
    · refine ⟨?_, ?_⟩
      · intro e he
        exact hw e (aerase_subset _ _ e he)
      · intro x hx
        rcases List.mem_append.mp hx with h1 | h1
        · exact hq x h1
        · simp at h1
          exact h1 ▸ hc
    · refine ⟨?_, ?_⟩
      · intro e he
        rcases aupsert_mem _ _ _ e he with h1 | h1
        · subst h1
          exact hc
        · exact hw e h1
      · exact hq

theorem releaseDeps_preserve (Pc : Cand → Prop) (tHash : THash)
    (deps : List (THash × Nat)) (w : Waiting) (q : List Cand)
    (hw : ∀ e ∈ w, Pc e.2.1) (hq : ∀ x ∈ q, Pc x) :
    (∀ e ∈ (releaseDeps tHash deps w q).1, Pc e.2.1) ∧
    (∀ x ∈ (releaseDeps tHash deps w q).2, Pc x) := by
  unfold releaseDeps
  induction deps generalizing w q with
  | nil => exact ⟨hw, hq⟩
  | cons d rest ih =>
    simp only [List.foldl_cons]
    have step := releaseStep_preserve Pc tHash (w, q) d hw hq
    have := ih (releaseStep tHash (w, q) d).1 (releaseStep tHash (w, q) d).2
      step.1 step.2
    simpa using this


/-- Modulus of Go's `uint32` arithmetic. -/
def U32 : Nat := 2 ^ 32

/-- The mutable state of the main selection loop of `NewBlockTemplate`
(lines 274-372), together with the queue, the waiting store and the
dependency map. -/
structure LoopState where
  queue : List Cand
  waiting : Waiting
  dependers : Dependers
  blockUtxos : UtxoView
  blockTxns : List Tx
  blockSize : Nat
  blockSigOpCost : Nat
  totalFees : Int
  txFees : List Int
  txSigOpCosts : List Nat
  sortedByFee : Bool
deriving Repr

/-- Termination measure of the selection loop: queue length plus one
unit per waiting structure and per outstanding dependency. -/
def loopMeasure (st : LoopState) : Nat := st.queue.length + mwaiting st.waiting

/-- The free-transaction cutoff of lines 308-310: skip once the block
is sorted by fee, the fee density is below `TxMinFreeFee` and the block
size including the candidate reaches `BlockMinSize`. -/
def freeTxCutoff (policy : Policy) (sortedByFee : Bool) (feePerKB : Int)
    (blockPlusTxSize : Nat) : Bool :=
  sortedByFee && decide (feePerKB < policy.TxMinFreeFee) &&
    decide (blockPlusTxSize ≥ policy.BlockMinSize)

/-- The block size including the popped transaction, in `uint32`
arithmetic: `blockPlusTxSize := blockSize + txSize` of line 285. -/
def blockPlusTxSize (st : LoopState) (tx : Tx) : Nat :=
  (st.blockSize + tx.serializeSize % U32) % U32

/-- The maximum-block-size guard of line 286 (with its `uint32` overflow
check): the popped transaction is skipped when this holds. -/
def sizeGuard (policy : Policy) (st : LoopState) (tx : Tx) : Prop :=
  blockPlusTxSize st tx < st.blockSize ∨ blockPlusTxSize st tx ≥ policy.BlockMaxSize

instance (policy : Policy) (st : LoopState) (tx : Tx) :
    Decidable (sizeGuard policy st tx) := by unfold sizeGuard; infer_instance

/-- The maximum-sigop guard of lines 298-299 (with its overflow check,
vacuous over `Nat`): the popped transaction is skipped when this holds. -/
def sigOpGuard (env : Env) (st : LoopState) (tx : Tx) : Prop :=
  st.blockSigOpCost + env.countSigOps tx < st.blockSigOpCost ∨
    st.blockSigOpCost + env.countSigOps tx > env.maxSigOpsPerBlock

instance (env : Env) (st : LoopState) (tx : Tx) :
    Decidable (sigOpGuard env st tx) := by unfold sigOpGuard; infer_instance

/-- The commit phase of one loop iteration (lines 338-371) for the
popped candidate `item` and the remaining queue `rest`: spend the
transaction's inputs in the block view and add its outputs, append the
transaction, update the size, sigop and fee accumulators and ledgers,
and release the dependents recorded under the transaction's hash.  The
`dependers` entry of the included transaction is read but never
discarded. -/
def includeTx (env : Env) (st : LoopState) (item : Cand) (rest : List Cand) :
    LoopState :=
  let tx := item.tx
  let wq := releaseDeps tx.hash ((alookup st.dependers tx.hash).getD [])
    st.waiting rest
  { queue := wq.2
    waiting := wq.1
    dependers := st.dependers
    blockUtxos := (spendTransaction env st.blockUtxos tx).1
    blockTxns := st.blockTxns ++ [tx]
    blockSize := blockPlusTxSize st tx
    blockSigOpCost := st.blockSigOpCost + env.countSigOps tx
    totalFees := st.totalFees + item.fee
    txFees := st.txFees ++ [item.fee]
    txSigOpCosts := st.txSigOpCosts ++ [env.countSigOps tx]
    sortedByFee := st.sortedByFee }

theorem includeTx_measure (env : Env) (st : LoopState) (item : Cand)
    (rest : List Cand) :
    loopMeasure (includeTx env st item rest) ≤ rest.length + mwaiting st.waiting := by
  have h := releaseDeps_measure item.tx.hash
    ((alookup st.dependers item.tx.hash).getD []) st.waiting rest
  simp only [includeTx, loopMeasure]
  exact h

/-- The main selection loop of `NewBlockTemplate` (lines 274-372): while
the queue is non-empty, pop the best candidate, enforce the maximum
block size (with `uint32` overflow guard), the maximum signature
operation cost and the free-transaction cutoff, check the transaction's
inputs and scripts, and on success commit it via `includeTx`. -/
def selectLoop (env : Env) (policy : Policy) (st : LoopState) : LoopState :=
  match hq : st.queue with
  | [] => st
  | c :: rest =>
    let pm := pickMax st.sortedByFee c rest
    if sizeGuard policy st pm.1.tx then
      selectLoop env policy { st with queue := pm.2 }
    else if sigOpGuard env st pm.1.tx then
      selectLoop env policy { st with queue := pm.2 }
    else if freeTxCutoff policy st.sortedByFee pm.1.feePerKB (blockPlusTxSize st pm.1.tx) then
      selectLoop env policy { st with queue := pm.2 }
    else if ¬ env.checkTransactionInputs pm.1.tx st.blockUtxos then
      selectLoop env policy { st with queue := pm.2 }
    else if ¬ env.validateTransactionScripts pm.1.tx st.blockUtxos then
      selectLoop env policy { st with queue := pm.2 }
    else
      selectLoop env policy (includeTx env st pm.1 pm.2)
termination_by loopMeasure st
decreasing_by
  all_goals simp_wf
  all_goals simp only [loopMeasure, hq, List.length_cons, pickMax_snd_length]
  · omega
  · omega
  · omega
  · omega
  · omega
  · have h1 := includeTx_measure env st (pickMax st.sortedByFee c rest).1
      (pickMax st.sortedByFee c rest).2
    simp only [loopMeasure, pickMax_snd_length] at h1
    omega

theorem selectLoop_nil (env : Env) (policy : Policy) (st : LoopState)
    (h : st.queue = []) : selectLoop env policy st = st := by
  rw [selectLoop.eq_def, h]

theorem selectLoop_skip (env : Env) (policy : Policy) (st : LoopState)
    (c : Cand) (rest : List Cand) (h : st.queue = c :: rest)
    (hskip :
      sizeGuard policy st (pickMax st.sortedByFee c rest).1.tx ∨
      sigOpGuard env st (pickMax st.sortedByFee c rest).1.tx ∨
      freeTxCutoff policy st.sortedByFee (pickMax st.sortedByFee c rest).1.feePerKB
        (blockPlusTxSize st (pickMax st.sortedByFee c rest).1.tx) = true ∨
      ¬ env.checkTransactionInputs (pickMax st.sortedByFee c rest).1.tx st.blockUtxos = true ∨
      ¬ env.validateTransactionScripts (pickMax st.sortedByFee c rest).1.tx st.blockUtxos = true) :
    selectLoop env policy st =
      selectLoop env policy { st with queue := (pickMax st.sortedByFee c rest).2 } := by
  rw [selectLoop.eq_def, h]
  dsimp only
  split_ifs with h1 h2 h3 h4 h5 <;> first | rfl | simp_all

theorem selectLoop_incl (env : Env) (policy : Policy) (st : LoopState)
    (c : Cand) (rest : List Cand) (h : st.queue = c :: rest)
    (h1 : ¬ sizeGuard policy st (pickMax st.sortedByFee c rest).1.tx)
    (h2 : ¬ sigOpGuard env st (pickMax st.sortedByFee c rest).1.tx)
    (h3 : freeTxCutoff policy st.sortedByFee (pickMax st.sortedByFee c rest).1.feePerKB
      (blockPlusTxSize st (pickMax st.sortedByFee c rest).1.tx) = false)
    (h4 : env.checkTransactionInputs (pickMax st.sortedByFee c rest).1.tx st.blockUtxos = true)
    (h5 : env.validateTransactionScripts (pickMax st.sortedByFee c rest).1.tx st.blockUtxos = true) :
    selectLoop env policy st =
      selectLoop env policy
        (includeTx env st (pickMax st.sortedByFee c rest).1 (pickMax st.sortedByFee c rest).2) := by
  rw [selectLoop.eq_def, h]
  dsimp only
  split_ifs with g1 g2 g3 g4 g5 <;> first | rfl | simp_all

/-- Loop invariant principle for the selection loop: a state property
preserved both by discarding the popped candidate and by committing it
(under the guards that hold on the commit path) holds of the final
state. -/
theorem selectLoop_invariant (env : Env) (policy : Policy) (P : LoopState → Prop)
    (hskip : ∀ st c rest, st.queue = c :: rest → P st →
      P { st with queue := (pickMax st.sortedByFee c rest).2 })
    (hincl : ∀ st c rest, st.queue = c :: rest →
      ¬ sizeGuard policy st (pickMax st.sortedByFee c rest).1.tx →
      ¬ sigOpGuard env st (pickMax st.sortedByFee c rest).1.tx →
      env.checkTransactionInputs (pickMax st.sortedByFee c rest).1.tx st.blockUtxos = true →
      P st →
      P (includeTx env st (pickMax st.sortedByFee c rest).1 (pickMax st.sortedByFee c rest).2)) :
    ∀ st, P st → P (selectLoop env policy st) := by
  intro st
  induction st using selectLoop.induct env policy with
  | case1 st hq =>
    intro hP
    rw [selectLoop_nil env policy st hq]
    exact hP
  | case2 st c rest hq pm h1 ih =>
    intro hP
    rw [selectLoop_skip env policy st c rest hq (Or.inl h1)]
    exact ih (hskip st c rest hq hP)
  | case3 st c rest hq pm h1 h2 ih =>
    intro hP
    rw [selectLoop_skip env policy st c rest hq (Or.inr (Or.inl h2))]
    exact ih (hskip st c rest hq hP)
  | case4 st c rest hq pm h1 h2 h3 ih =>
    intro hP
    rw [selectLoop_skip env policy st c rest hq (Or.inr (Or.inr (Or.inl h3)))]
    exact ih (hskip st c rest hq hP)
  | case5 st c rest hq pm h1 h2 h3 h4 ih =>
    intro hP
    rw [selectLoop_skip env policy st c rest hq (Or.inr (Or.inr (Or.inr (Or.inl h4))))]
    exact ih (hskip st c rest hq hP)
  | case6 st c rest hq pm h1 h2 h3 h4 h5 ih =>
    intro hP
    rw [selectLoop_skip env policy st c rest hq (Or.inr (Or.inr (Or.inr (Or.inr h5))))]
    exact ih (hskip st c rest hq hP)
  | case7 st c rest hq pm h1 h2 h3 h4 h5 ih =>
    intro hP
    rw [selectLoop_incl env policy st c rest hq h1 h2
      (by revert h3; simp) (by revert h4; simp) (by revert h5; simp)]
    exact ih (hincl st c rest hq h1 h2 (by revert h4; simp) hP)

/-- Fuel-indexed form of the selection loop, structurally recursive so
that concrete runs evaluate inside the kernel.  With fuel at least
`loopMeasure st` it agrees with `selectLoop`. -/
def selectLoopF : Nat → Env → Policy → LoopState → LoopState
  | 0, _, _, st => st
  | n + 1, env, policy, st =>
    match st.queue with
    | [] => st
    | c :: rest =>
      let pm := pickMax st.sortedByFee c rest
      if sizeGuard policy st pm.1.tx then
        selectLoopF n env policy { st with queue := pm.2 }
      else if sigOpGuard env st pm.1.tx then
        selectLoopF n env policy { st with queue := pm.2 }
      else if freeTxCutoff policy st.sortedByFee pm.1.feePerKB (blockPlusTxSize st pm.1.tx) then
        selectLoopF n env policy { st with queue := pm.2 }
      else if ¬ env.checkTransactionInputs pm.1.tx st.blockUtxos then
        selectLoopF n env policy { st with queue := pm.2 }
      else if ¬ env.validateTransactionScripts pm.1.tx st.blockUtxos then
        selectLoopF n env policy { st with queue := pm.2 }
      else
        selectLoopF n env policy (includeTx env st pm.1 pm.2)

theorem selectLoopF_eq (n : Nat) (env : Env) (policy : Policy) (st : LoopState)
    (h : loopMeasure st ≤ n) :
    selectLoopF n env policy st = selectLoop env policy st := by
  induction n generalizing st with
  | zero =>
    have hq : st.queue = [] := by
      have := h
      simp only [loopMeasure, Nat.le_zero] at this
      exact List.length_eq_zero.mp (by omega)
    rw [selectLoop_nil env policy st hq]
    rfl
  | succ n ih =>
    cases hq : st.queue with
    | nil =>
      rw [selectLoop_nil env policy st hq]
      simp [selectLoopF, hq]
    | cons c rest =>
      have hlen : rest.length + 1 + mwaiting st.waiting ≤ n + 1 := by
        have := h
        simp only [loopMeasure, hq, List.length_cons] at this
        omega
      simp only [selectLoopF, hq]
      split_ifs with h1 h2 h3 h4 h5
      · rw [selectLoop_skip env policy st c rest hq (Or.inl h1)]
        apply ih
        simp only [loopMeasure, pickMax_snd_length]
        omega
      · rw [selectLoop_skip env policy st c rest hq (Or.inr (Or.inl h2))]
        apply ih
        simp only [loopMeasure, pickMax_snd_length]
        omega
      · rw [selectLoop_skip env policy st c rest hq (Or.inr (Or.inr (Or.inl h3)))]
        apply ih
        simp only [loopMeasure, pickMax_snd_length]
        omega
      · rw [selectLoop_incl env policy st c rest hq h1 h2
          (by revert h3; simp) h4 h5]
        apply ih
        have := includeTx_measure env st (pickMax st.sortedByFee c rest).1
          (pickMax st.sortedByFee c rest).2
        simp only [pickMax_snd_length] at this
        omega
      · rw [selectLoop_skip env policy st c rest hq
          (Or.inr (Or.inr (Or.inr (Or.inr h5))))]
        apply ih
        simp only [loopMeasure, pickMax_snd_length]
        omega
      · rw [selectLoop_skip env policy st c rest hq (Or.inr (Or.inr (Or.inr (Or.inl h4))))]
        apply ih
        simp only [loopMeasure, pickMax_snd_length]
        omega

/-- The selection loop as run by `newBlockTemplate`: the fuel version
started with enough fuel, so that it both evaluates and coincides with
`selectLoop`. -/
def selectLoopRun (env : Env) (policy : Policy) (st : LoopState) : LoopState :=
  selectLoopF (loopMeasure st) env policy st

theorem selectLoopRun_eq (env : Env) (policy : Policy) (st : LoopState) :
    selectLoopRun env policy st = selectLoop env policy st :=
  selectLoopF_eq (loopMeasure st) env policy st le_rfl

/-- The output artifact (`types.BlockTemplate`), restricted to the
fields the specification's claims speak about: the transactions of the
assembled block in final order, the fee and sigop ledgers, the next
height, the blue count and the pay-address flag. -/
structure BlockTemplate where
  blockTxns : List Tx
  fees : List Int
  sigOpCounts : List Nat
  height : Nat
  blues : Int
  validPayAddress : Bool
deriving DecidableEq, Repr

/-- First error produced by applying a fallible Go method to the
elements of a list in order (the `AddParent` and `AddTransaction`
loops of lines 440-449). -/
def firstErr {α : Type} (f : α → Option GoErr) : List α → Option GoErr
  | [] => none
  | a :: rest =>
    match f a with
    | some e => some e
    | none => firstErr f rest

/-- `handleCreatedBlockTemplate` (lines 582-595): overwrites the
node's cached template when the cached height equals the new height (a
cache effect invisible in the returned value) and returns the template
with a nil error. -/
def handleCreatedBlockTemplate (bt : BlockTemplate) :
    Option BlockTemplate × Option MiningErr :=
  (some bt, none)

/-- The prologue of `NewBlockTemplate` (lines 98-140): standard verify
flags, extra nonce, parent selection and next height, coinbase script and
OP_RETURN construction, and coinbase creation.  Every failure is
propagated as-is (`return nil, err`), so the result errors are `raw`.
On success it yields the parent list, the next block height, the blue
count and the coinbase transaction.

`parentsOf` is the parent tip set used: the supplied one, or the mining
tips when the caller passes none (lines 111-120). -/
def parentsOf (env : Env) (parents : Option (List THash)) : List THash :=
  match parents with
  | none => env.getMiningTips
  | some ps => ps

/-- The next block height as computed at lines 111-120: one above the
main chain tip when the caller passes no parents, one above the main
parent of the supplied parent set otherwise. -/
def nextHeight (env : Env) (parents : Option (List THash)) : Nat :=
  match parents with
  | none => env.mainChainTipHeight + 1
  | some ps => env.mainParentHeight ps + 1

def prepareCoinbase (env : Env) (parents : Option (List THash)) :
    Except MiningErr (List THash × Nat × Int × Tx) :=
  match env.standardVerifyFlags with
  | .error e => .error (.raw e)
  | .ok _ =>
  match env.randomUint64 with
  | .error e => .error (.raw e)
  | .ok extraNonce =>
  let parentList := parentsOf env parents
  let nextBlockHeight := nextHeight env parents
  match env.standardCoinbaseScript nextBlockHeight extraNonce with
  | .error e => .error (.raw e)
  | .ok coinbaseScript =>
  match env.standardCoinbaseOpReturn with
  | .error e => .error (.raw e)
  | .ok opReturnPkScript =>
  match env.createCoinbaseTx coinbaseScript opReturnPkScript (env.blues parentList) with
  | .error e => .error (.raw e)
  | .ok coinbaseTx => .ok (parentList, nextBlockHeight, env.blues parentList, coinbaseTx)

/-- The loop state as first seeded by `NewBlockTemplate` (lines 149-175
and 268-271): the scanned mempool, the coinbase as first block
transaction, the header-plus-coinbase block size in `uint32` arithmetic,
the coinbase sigop cost, the dummy `-1` coinbase fee slot, and the
initial sort order `BlockPrioritySize == 0`. -/
def initialLoopState (env : Env) (policy : Policy) (sourceTxns : List TxDesc)
    (coinbaseTx : Tx) : LoopState :=
  let scan := scanMempool env sourceTxns
  { queue := scan.queue
    waiting := scan.waiting
    dependers := scan.dependers
    blockUtxos := scan.blockUtxos
    blockTxns := [coinbaseTx]
    blockSize := (env.blockHeaderOverhead % U32 + coinbaseTx.serializeSize % U32) % U32
    blockSigOpCost := env.countSigOps coinbaseTx
    totalFees := 0
    txFees := [-1]
    txSigOpCosts := [env.countSigOps coinbaseTx]
    sortedByFee := policy.BlockPrioritySize == 0 }

/-- The selection core: the mempool scan followed by the selection
loop. -/
def assembleState (env : Env) (policy : Policy) (sourceTxns : List TxDesc)
    (coinbaseTx : Tx) : LoopState :=
  selectLoopRun env policy (initialLoopState env policy sourceTxns coinbaseTx)

/-- The epilogue of `NewBlockTemplate` (lines 374-488): the coinbase fee
slot fix-up `txFees[0] = -totalFees`, the witness fill (tagged
`ErrCreatingCoinbase` on failure), the seven per-algorithm difficulty
queries (tagged `ErrGettingDifficulty`), the parent and transaction
append loops (parent errors raw, transaction errors tagged
`ErrTransactionAppend`), the final connect check (tagged
`ErrCheckConnectBlock`), and the template construction. -/
def finalizeTemplate (env : Env) (parentList : List THash)
    (nextBlockHeight : Nat) (blues : Int) (fin : LoopState) :
    Except MiningErr BlockTemplate :=
  let txFees := fin.txFees.set 0 (-fin.totalFees)
  match env.fillWitness with
  | .error e => .error (.rule .ErrCreatingCoinbase e)
  | .ok _ =>
  match env.calcDifficulty .BLAKE2BD with
  | .error e => .error (.rule .ErrGettingDifficulty e)
  | .ok _ =>
  match env.calcDifficulty .X16RV3 with
  | .error e => .error (.rule .ErrGettingDifficulty e)
  | .ok _ =>
  match env.calcDifficulty .X8R16 with
  | .error e => .error (.rule .ErrGettingDifficulty e)
  | .ok _ =>
  match env.calcDifficulty .QITMEERKECCAK256 with
  | .error e => .error (.rule .ErrGettingDifficulty e)
  | .ok _ =>
  match env.calcDifficulty .CUCKAROO with
  | .error e => .error (.rule .ErrGettingDifficulty e)
  | .ok _ =>
  match env.calcDifficulty .CUCKAROOM with
  | .error e => .error (.rule .ErrGettingDifficulty e)
  | .ok _ =>
  match env.calcDifficulty .CUCKATOO with
  | .error e => .error (.rule .ErrGettingDifficulty e)
  | .ok _ =>
  match firstErr env.addParentErr parentList with
  | some e => .error (.raw e)
  | none =>
  match firstErr env.addTransactionErr fin.blockTxns with
  | some e => .error (.rule .ErrTransactionAppend e)
  | none =>
  match env.checkConnect with
  | .error e => .error (.rule .ErrCheckConnectBlock e)
  | .ok _ =>
  .ok { blockTxns := fin.blockTxns
        fees := txFees
        sigOpCounts := fin.txSigOpCosts
        height := nextBlockHeight
        blues := blues
        validPayAddress := env.validPayAddress }

/-- `NewBlockTemplate` (lines 86-488).  The returned pair mirrors Go's
`(*types.BlockTemplate, error)`: the prologue, the selection core and
the epilogue in source order, with every early `return nil, err` giving
the `(none, some e)` pair and the final `handleCreatedBlockTemplate`
giving `(some template, none)`.  Header assembly (timestamp, Merkle
roots, the Cuckaroom difficulty carried in the header and the
per-algorithm difficulty bundle) affects no claim and is represented by
the error behaviour of its fallible steps. -/
def newBlockTemplate (env : Env) (policy : Policy) (sourceTxns : List TxDesc)
    (parents : Option (List THash)) : Option BlockTemplate × Option MiningErr :=
  match prepareCoinbase env parents with
  | .error e => (none, some e)
  | .ok (parentList, nextBlockHeight, blues, coinbaseTx) =>
    match finalizeTemplate env parentList nextBlockHeight blues
        (assembleState env policy sourceTxns coinbaseTx) with
    | .error e => (none, some e)
    | .ok bt => handleCreatedBlockTemplate bt

/-- Modelled from the spec: the serialized size of the assembled block
per the consensus serializer, which the spec describes as the fixed
header overhead plus the serialized transactions. -/
def blockSerializedSize (env : Env) (txs : List Tx) : Nat :=
  env.blockHeaderOverhead + (txs.map (fun t => t.serializeSize)).sum

theorem selectLoop_preserves_sortedByFee (env : Env) (policy : Policy)
    (st : LoopState) :
    (selectLoop env policy st).sortedByFee = st.sortedByFee := by
  refine selectLoop_invariant env policy
    (fun s => s.sortedByFee = st.sortedByFee) ?_ ?_ st rfl
  · intro s c rest hq hP
    simpa using hP
  · intro s c rest hq _ _ _ hP
    simpa [includeTx] using hP

/-- The coinbase transaction produced by the fixture environment's
`createCoinbaseTx`. -/
def cbBase : Tx where
  hash := 100
  serializeSize := 50
  isCoinBase := true
  txIn := []
  txOut := [{ amount := 500, pkScript := [] }]

/-- A fixture environment with benign collaborators: a one-entry chain
UTXO set, truthful input checking against the view, and no failures. -/
def envBase : Env where
  chain := fun p => if p = ⟨1, 0⟩ then some { amount := 1000, spent := false } else none
  haveTx := fun h => h = 3
  isFinalized := fun _ => true
  fetchViewFails := fun _ => false
  calcPriority := fun _ => 0
  countSigOps := fun _ => 0
  maxSigOpsPerBlock := 5000
  checkTransactionInputs := fun tx view =>
    tx.txIn.all fun p =>
      match alookup view p with
      | some e => !e.spent
      | none => false
  validateTransactionScripts := fun _ _ => true
  provablyUnspendable := fun _ => false
  blockHeaderOverhead := 100
  standardVerifyFlags := .ok ()
  randomUint64 := .ok 5
  getMiningTips := [1]
  mainChainTipHeight := 10
  mainParentHeight := fun _ => 10
  blues := fun _ => 1
  standardCoinbaseScript := fun _ _ => .ok []
  standardCoinbaseOpReturn := .ok []
  createCoinbaseTx := fun _ _ _ => .ok cbBase
  fillWitness := .ok ()
  medianTime := 0
  calcDifficulty := fun _ => .ok 1
  blockVersion := 1
  addParentErr := fun _ => none
  addTransactionErr := fun _ => none
  checkConnect := .ok ()
  curTemplateHeight := none
  graphStateTotal := 0
  validPayAddress := true

/-- A mempool transaction spending the chain output `(1, 0)`. -/
def tx3 : Tx where
  hash := 3
  serializeSize := 250
  isCoinBase := false
  txIn := [⟨1, 0⟩]
  txOut := [{ amount := 900, pkScript := [] }]

/-- A policy reserving a high-priority area, with a free-fee floor that
would exclude a zero-fee transaction once the queue is fee-sorted. -/
def polC1 : Policy where
  BlockMinSize := 0
  BlockMaxSize := 1000000
  BlockPrioritySize := 1
  TxMinFreeFee := 1000

/-- C1.  In the main selection loop, whenever the queue is still in
priority-first mode and the accumulated size reaches
`block_priority_size` or the popped priority falls below the threshold,
the engine is claimed to set `sorted_by_fee`, re-key the queue and
requeue the candidate.  The loop of lines 274-372 contains no such
branch: the first conjunct shows the flag is never written by the loop,
and the second shows a concrete assembly with `BlockPrioritySize = 1 > 0`
where a zero-priority, zero-fee candidate is included while the flag
stays in priority mode — had the claimed switch happened, the
free-transaction cutoff would have excluded it. -/
theorem C1_no_priority_to_fee_switch :
    (∀ (env : Env) (policy : Policy) (st : LoopState),
      (selectLoop env policy st).sortedByFee = st.sortedByFee) ∧
    ((newBlockTemplate envBase polC1
        [{ tx := tx3, fee := 0, feePerKB := 0 }] none).1.map
      fun t => t.blockTxns.map fun tx => tx.hash) = some [100, 3] := by
  constructor
  · exact selectLoop_preserves_sortedByFee
  · decide


/-- A fee-first policy with no free-fee floor and a generous size cap. -/
def polBase : Policy where
  BlockMinSize := 0
  BlockMaxSize := 1000000
  BlockPrioritySize := 0
  TxMinFreeFee := 0

/-- C6.  The claim (and the function's own doc comment, lines 82-83)
says a nil-template/nil-error return is reachable when there are not
enough voters on the top blocks.  No return statement of
`NewBlockTemplate` produces that pair: every path yields either a
non-nil error or a non-nil template. -/
theorem C6_nil_nil_return_unreachable (env : Env) (policy : Policy)
    (sourceTxns : List TxDesc) (parents : Option (List THash)) :
    ¬ ((newBlockTemplate env policy sourceTxns parents).1 = none ∧
       (newBlockTemplate env policy sourceTxns parents).2 = none) := by
  rintro ⟨h1, h2⟩
  unfold newBlockTemplate handleCreatedBlockTemplate at h1 h2
  cases hp : prepareCoinbase env parents with
  | error e =>
    rw [hp] at h2
    simp at h2
  | ok v =>
    obtain ⟨pl, nh, bl, cb⟩ := v
    rw [hp] at h1 h2
    dsimp only at h1 h2
    cases hf : finalizeTemplate env pl nh bl (assembleState env policy sourceTxns cb) with
    | error e =>
      rw [hf] at h2
      simp at h2
    | ok bt =>
      rw [hf] at h1
      simp at h1

/-- Whether a returned error carries the `ErrCreatingCoinbase` rule
tag. -/
def isCreatingCoinbaseErr : Option MiningErr → Bool
  | some (.rule .ErrCreatingCoinbase _) => true
  | _ => false

/-- An environment whose coinbase-script construction fails with the
opaque error `7`. -/
def envC5 : Env :=
  { envBase with standardCoinbaseScript := fun _ _ => .error 7 }

/-- C5 counterexample.  When `standardCoinbaseScript` fails, lines
122-125 return the error as-is (`return nil, err`), not wrapped by
`miningRuleError(ErrCreatingCoinbase, ...)`: the concrete run returns
the raw error `7` and the result carries no `ErrCreatingCoinbase`
tag. -/
theorem C5_counterexample_untagged_script_error :
    newBlockTemplate envC5 polBase [] none = (none, some (MiningErr.raw 7)) ∧
    isCreatingCoinbaseErr (newBlockTemplate envC5 polBase [] none).2 = false := by
  constructor
  · decide
  · decide

/-- C5 amended.  Failures of `standardCoinbaseScript` (lines 122-125)
and of `standardCoinbaseOpReturn` (lines 126-129) are propagated to the
caller unchanged and untagged; the `ErrCreatingCoinbase` tag is
attached (only) when the later witness fill of lines 377-381 fails. -/
theorem C5_amended_coinbase_error_channels (env : Env) (policy : Policy)
    (sourceTxns : List TxDesc) (parents : Option (List THash)) :
    (∀ u n e, env.standardVerifyFlags = .ok u → env.randomUint64 = .ok n →
      env.standardCoinbaseScript (nextHeight env parents) n = .error e →
      newBlockTemplate env policy sourceTxns parents = (none, some (.raw e))) ∧
    (∀ u n cs e, env.standardVerifyFlags = .ok u → env.randomUint64 = .ok n →
      env.standardCoinbaseScript (nextHeight env parents) n = .ok cs →
      env.standardCoinbaseOpReturn = .error e →
      newBlockTemplate env policy sourceTxns parents = (none, some (.raw e))) ∧
    (∀ pr e, prepareCoinbase env parents = .ok pr →
      env.fillWitness = .error e →
      newBlockTemplate env policy sourceTxns parents =
        (none, some (.rule .ErrCreatingCoinbase e))) := by
  refine ⟨?_, ?_, ?_⟩
  · intro u n e hv hr hs
    unfold newBlockTemplate prepareCoinbase
    rw [hv, hr]
    dsimp only
    rw [hs]
  · intro u n cs e hv hr hs ho
    unfold newBlockTemplate prepareCoinbase
    rw [hv, hr]
    dsimp only
    rw [hs, ho]
  · intro pr e hp hw
    obtain ⟨pl, nh, bl, cb⟩ := pr
    unfold newBlockTemplate
    rw [hp]
    dsimp only
    unfold finalizeTemplate
    rw [hw]

/-- C5 witness of the amended claim: a run where the coinbase-script
oracle fails with error `7` and the raw error is returned. -/
theorem C5_amended_witness :
    newBlockTemplate envC5 polBase [] none = (none, some (MiningErr.raw 7)) :=
  (C5_amended_coinbase_error_channels envC5 polBase [] none).1 () 5 7 rfl rfl rfl



/-- The selection loop only appends to the block transaction list and to
the fee and sigop ledgers; it never reorders or rewrites what was
already committed. -/
theorem selectLoop_ledgers_extend (env : Env) (policy : Policy) (st : LoopState) :
    ∃ l f s, (selectLoop env policy st).blockTxns = st.blockTxns ++ l ∧
      (selectLoop env policy st).txFees = st.txFees ++ f ∧
      (selectLoop env policy st).txSigOpCosts = st.txSigOpCosts ++ s := by
  refine selectLoop_invariant env policy
    (fun s => ∃ l f sg, s.blockTxns = st.blockTxns ++ l ∧
      s.txFees = st.txFees ++ f ∧ s.txSigOpCosts = st.txSigOpCosts ++ sg)
    ?_ ?_ st ⟨[], [], [], by simp, by simp, by simp⟩
  · intro s c rest hq hP
    exact hP
  · intro s c rest hq _ _ _ hP
    obtain ⟨l, f, sg, h1, h2, h3⟩ := hP
    refine ⟨l ++ [(pickMax s.sortedByFee c rest).1.tx],
      f ++ [(pickMax s.sortedByFee c rest).1.fee],
      sg ++ [env.countSigOps (pickMax s.sortedByFee c rest).1.tx], ?_, ?_, ?_⟩ <;>
      simp [includeTx, h1, h2, h3]

/-- C10.  `spendTransaction` (lines 551-562) is total: inputs with no
entry in the view are silently skipped and the function ends with
`return nil`, so the returned error of the pair is always `none`; hence
the warning branch after the commit-step call (lines 343-347) is
unreachable, and a popped candidate that has passed all guards is always
appended to the block transaction list. -/
theorem C10_spendTransaction_total_and_commit_appends :
    (∀ (env : Env) (view : UtxoView) (tx : Tx),
      (spendTransaction env view tx).2 = none) ∧
    (∀ (env : Env) (policy : Policy) (st : LoopState) (c : Cand) (rest : List Cand),
      st.queue = c :: rest →
      ¬ sizeGuard policy st (pickMax st.sortedByFee c rest).1.tx →
      ¬ sigOpGuard env st (pickMax st.sortedByFee c rest).1.tx →
      freeTxCutoff policy st.sortedByFee (pickMax st.sortedByFee c rest).1.feePerKB
        (blockPlusTxSize st (pickMax st.sortedByFee c rest).1.tx) = false →
      env.checkTransactionInputs (pickMax st.sortedByFee c rest).1.tx st.blockUtxos = true →
      env.validateTransactionScripts (pickMax st.sortedByFee c rest).1.tx st.blockUtxos = true →
      ∃ l, (selectLoop env policy st).blockTxns =
        st.blockTxns ++ [(pickMax st.sortedByFee c rest).1.tx] ++ l) := by
  constructor
  · intro env view tx
    rfl
  · intro env policy st c rest hq h1 h2 h3 h4 h5
    rw [selectLoop_incl env policy st c rest hq h1 h2 h3 h4 h5]
    obtain ⟨l, f, s, hl, hf, hs⟩ := selectLoop_ledgers_extend env policy
      (includeTx env st (pickMax st.sortedByFee c rest).1 (pickMax st.sortedByFee c rest).2)
    refine ⟨l, ?_⟩
    rw [hl]
    simp [includeTx]

/-- A state about to pop a single fee-paying candidate, used to witness
the commit-path theorems at a concrete input. -/
def stW : LoopState where
  queue := [{ tx := tx3, fee := 1000, feePerKB := 4000, priority := 0 }]
  waiting := []
  dependers := []
  blockUtxos := [(⟨1, 0⟩, { amount := 1000, spent := false })]
  blockTxns := [cbBase]
  blockSize := 150
  blockSigOpCost := 0
  totalFees := 0
  txFees := [-1]
  txSigOpCosts := [0]
  sortedByFee := true

/-- C10 witness: the concrete state `stW` passes every guard and its
candidate is appended. -/
theorem C10_witness :
    ∃ l, (selectLoop envBase polBase stW).blockTxns =
      stW.blockTxns ++ [(pickMax stW.sortedByFee
        { tx := tx3, fee := 1000, feePerKB := 4000, priority := 0 } []).1.tx] ++ l :=
  C10_spendTransaction_total_and_commit_appends.2 envBase polBase stW
    { tx := tx3, fee := 1000, feePerKB := 4000, priority := 0 } [] rfl
    (by decide) (by decide) (by decide) (by decide) (by decide)

/-- C7.  Assembly is a pure function of the environment (mempool
snapshot, chain state, policy and the entropy nonce delivered by
`randomUint64`): two successful runs over the same inputs return
templates with the same transaction list in the same order. -/
theorem C7_assembly_deterministic (env : Env) (policy : Policy)
    (sourceTxns : List TxDesc) (parents : Option (List THash))
    (t1 t2 : BlockTemplate)
    (h1 : (newBlockTemplate env policy sourceTxns parents).1 = some t1)
    (h2 : (newBlockTemplate env policy sourceTxns parents).1 = some t2) :
    t1.blockTxns = t2.blockTxns := by
  rw [h1] at h2
  cases Option.some.inj h2
  rfl

/-- C7 witness: two runs of the single-transaction assembly. -/
theorem C7_witness :
    ((newBlockTemplate envBase polBase [{ tx := tx3, fee := 1000, feePerKB := 4000 }] none).1.map
      fun t => t.blockTxns) =
    ((newBlockTemplate envBase polBase [{ tx := tx3, fee := 1000, feePerKB := 4000 }] none).1.map
      fun t => t.blockTxns) := by
  cases hr : (newBlockTemplate envBase polBase
      [{ tx := tx3, fee := 1000, feePerKB := 4000 }] none).1 with
  | none => rfl
  | some t =>
    have := C7_assembly_deterministic envBase polBase
      [{ tx := tx3, fee := 1000, feePerKB := 4000 }] none t t hr hr
    simp [this]


/-- A mempool transaction spending the first output of `tx3` (an
in-mempool dependency). -/
def tx4 : Tx where
  hash := 4
  serializeSize := 300
  isCoinBase := false
  txIn := [⟨3, 0⟩]
  txOut := [{ amount := 800, pkScript := [] }]

/-- The fixture environment extended so the mempool also holds `tx4`. -/
def envC8 : Env := { envBase with haveTx := fun h => h = 3 || h = 4 }

/-- C8 counterexample.  In the run where `tx3` and its dependent `tx4`
are both included, the release phase (lines 364-371) pushed `tx4` after
removing `tx3` from its `dependsOn` set, but the loop contains no
`delete(dependers, ...)`: after the loop the dependency-map entry of the
included `tx3` is still present, refuting the claimed discard of
`DM[T.id]`. -/
theorem C8_counterexample_dependers_entry_not_discarded :
    ((assembleState envC8 polBase
        [{ tx := tx4, fee := 90, feePerKB := 300 },
         { tx := tx3, fee := 1000, feePerKB := 4000 }] cbBase).blockTxns.map
      fun t => t.hash) = [100, 3, 4] ∧
    alookup (assembleState envC8 polBase
        [{ tx := tx4, fee := 90, feePerKB := 300 },
         { tx := tx3, fee := 1000, feePerKB := 4000 }] cbBase).dependers 3 =
      some [(4, 0)] := by
  constructor
  · decide
  · decide

/-- C8 amended.  Each time the loop includes a transaction T it walks
the candidates recorded in `dependers[T.hash]`: for a candidate still
waiting, T's hash is erased from its `dependsOn` set and the candidate
is pushed into the queue exactly when the set becomes empty; the
`dependers` map itself is never shrunk — the entry of T survives the
inclusion (only its inner `dependsOn` sets change). -/
theorem C8_amended_release_semantics :
    (∀ (env : Env) (policy : Policy) (st : LoopState),
      (selectLoop env policy st).dependers = st.dependers) ∧
    (∀ (tHash : THash) (w : Waiting) (q : List Cand) (dep : THash × Nat)
        (c : Cand) (dl : List THash), alookup w dep.2 = some (c, dl) →
      (dl.erase tHash = [] →
        releaseStep tHash (w, q) dep = (aerase w dep.2, q ++ [c])) ∧
      (dl.erase tHash ≠ [] →
        releaseStep tHash (w, q) dep = (aupsert w dep.2 (c, dl.erase tHash), q))) := by
  constructor
  · intro env policy st
    refine selectLoop_invariant env policy (fun s => s.dependers = st.dependers)
      ?_ ?_ st rfl
    · intro s c rest hq hP
      exact hP
    · intro s c rest hq _ _ _ hP
      simpa [includeTx] using hP
  · intro tHash w q dep c dl h
    constructor
    · intro hemp
      simp only [releaseStep, h, hemp]
      simp
    · intro hne
      simp only [releaseStep, h]
      rw [if_neg (by simpa using hne)]

/-- C8 witness of the amended claim: releasing the included hash `3`
from the waiting candidate for `tx4` empties its `dependsOn` set, so the
entry is removed from the waiting store and the candidate is pushed. -/
theorem C8_amended_witness :
    releaseStep 3 ([(0, { tx := tx4, fee := 90, feePerKB := 300, priority := 0 }, [3])], [])
        (4, 0) =
      (aerase [(0, { tx := tx4, fee := 90, feePerKB := 300, priority := 0 }, [3])] 0,
        [] ++ [{ tx := tx4, fee := 90, feePerKB := 300, priority := 0 }]) :=
  ((C8_amended_release_semantics.2 3
    [(0, { tx := tx4, fee := 90, feePerKB := 300, priority := 0 }, [3])] []
    (4, 0) { tx := tx4, fee := 90, feePerKB := 300, priority := 0 } [3]
    (by decide)).1) (by decide)

/-- C9.  The free-transaction cutoff of lines 306-318: a popped
candidate that passed the size and sigop guards is turned away by the
cutoff exactly when the queue is fee-sorted, its fee density is below
`TxMinFreeFee`, and the block size including it reaches `BlockMinSize`;
when it fires the iteration discards the candidate and recurses, and a
below-threshold candidate with the block still under `BlockMinSize`
passes the cutoff and (when the input and script checks agree) is
appended to the block. -/
theorem C9_free_tx_cutoff_exact (env : Env) (policy : Policy) (st : LoopState)
    (c : Cand) (rest : List Cand) (hq : st.queue = c :: rest)
    (h1 : ¬ sizeGuard policy st (pickMax st.sortedByFee c rest).1.tx)
    (h2 : ¬ sigOpGuard env st (pickMax st.sortedByFee c rest).1.tx) :
    (freeTxCutoff policy st.sortedByFee (pickMax st.sortedByFee c rest).1.feePerKB
        (blockPlusTxSize st (pickMax st.sortedByFee c rest).1.tx) = true ↔
      st.sortedByFee = true ∧
      (pickMax st.sortedByFee c rest).1.feePerKB < policy.TxMinFreeFee ∧
      blockPlusTxSize st (pickMax st.sortedByFee c rest).1.tx ≥ policy.BlockMinSize) ∧
    (freeTxCutoff policy st.sortedByFee (pickMax st.sortedByFee c rest).1.feePerKB
        (blockPlusTxSize st (pickMax st.sortedByFee c rest).1.tx) = true →
      selectLoop env policy st =
        selectLoop env policy { st with queue := (pickMax st.sortedByFee c rest).2 }) ∧
    (st.sortedByFee = true →
      (pickMax st.sortedByFee c rest).1.feePerKB < policy.TxMinFreeFee →
      blockPlusTxSize st (pickMax st.sortedByFee c rest).1.tx < policy.BlockMinSize →
      env.checkTransactionInputs (pickMax st.sortedByFee c rest).1.tx st.blockUtxos = true →
      env.validateTransactionScripts (pickMax st.sortedByFee c rest).1.tx st.blockUtxos = true →
      ∃ l, (selectLoop env policy st).blockTxns =
        st.blockTxns ++ [(pickMax st.sortedByFee c rest).1.tx] ++ l) := by
  refine ⟨?_, ?_, ?_⟩
  · unfold freeTxCutoff
    constructor
    · intro h
      simp only [Bool.and_eq_true, decide_eq_true_eq] at h
      exact ⟨h.1.1, h.1.2, h.2⟩
    · intro ⟨ha, hb, hc⟩
      simp only [Bool.and_eq_true, decide_eq_true_eq]
      exact ⟨⟨ha, hb⟩, hc⟩
  · intro h
    exact selectLoop_skip env policy st c rest hq (Or.inr (Or.inr (Or.inl h)))
  · intro ha hb hc h4 h5
    have h3 : freeTxCutoff policy st.sortedByFee (pickMax st.sortedByFee c rest).1.feePerKB
        (blockPlusTxSize st (pickMax st.sortedByFee c rest).1.tx) = false := by
      unfold freeTxCutoff
      simp only [Bool.and_eq_false_iff]
      right
      simp [decide_eq_false_iff_not]
      omega
    rw [selectLoop_incl env policy st c rest hq h1 h2 h3 h4 h5]
    obtain ⟨l, f, s, hl, hf, hs⟩ := selectLoop_ledgers_extend env policy
      (includeTx env st (pickMax st.sortedByFee c rest).1 (pickMax st.sortedByFee c rest).2)
    refine ⟨l, ?_⟩
    rw [hl]
    simp [includeTx]

/-- C9 witness: a state with one zero-fee candidate below the free-fee
floor, where the block including it is still under `BlockMinSize`, so
the candidate is included. -/
theorem C9_witness :
    ∃ l, (selectLoop envBase
        { BlockMinSize := 1000, BlockMaxSize := 1000000, BlockPrioritySize := 0,
          TxMinFreeFee := 5000 } stW).blockTxns =
      stW.blockTxns ++ [(pickMax stW.sortedByFee
        { tx := tx3, fee := 1000, feePerKB := 4000, priority := 0 } []).1.tx] ++ l := by
  have h := C9_free_tx_cutoff_exact envBase
    { BlockMinSize := 1000, BlockMaxSize := 1000000, BlockPrioritySize := 0,
      TxMinFreeFee := 5000 } stW
    { tx := tx3, fee := 1000, feePerKB := 4000, priority := 0 } [] rfl
    (by decide) (by decide)
  exact h.2.2 (by decide) (by decide) (by decide) (by decide) (by decide)


/-- A successful epilogue returns exactly the template built from the
final loop state: the block transactions, the fee ledger with slot 0
overwritten by the negated fee total, the sigop ledger, and the height
and blues metadata. -/
theorem finalizeTemplate_ok (env : Env) (pl : List THash) (nh : Nat) (bl : Int)
    (fin : LoopState) (bt : BlockTemplate)
    (h : finalizeTemplate env pl nh bl fin = .ok bt) :
    bt = { blockTxns := fin.blockTxns
           fees := fin.txFees.set 0 (-fin.totalFees)
           sigOpCounts := fin.txSigOpCosts
           height := nh
           blues := bl
           validPayAddress := env.validPayAddress } := by
  unfold finalizeTemplate at h
  repeat' split at h
  all_goals simp_all

/-- A successful run returns exactly the template assembled from the
coinbase delivered by the prologue. -/
theorem newBlockTemplate_ok (env : Env) (policy : Policy)
    (sourceTxns : List TxDesc) (parents : Option (List THash))
    (pl : List THash) (nh : Nat) (bl : Int) (cb : Tx) (t : BlockTemplate)
    (hp : prepareCoinbase env parents = .ok (pl, nh, bl, cb))
    (ht : (newBlockTemplate env policy sourceTxns parents).1 = some t) :
    t = { blockTxns := (assembleState env policy sourceTxns cb).blockTxns
          fees := (assembleState env policy sourceTxns cb).txFees.set 0
            (-(assembleState env policy sourceTxns cb).totalFees)
          sigOpCounts := (assembleState env policy sourceTxns cb).txSigOpCosts
          height := nh
          blues := bl
          validPayAddress := env.validPayAddress } := by
  unfold newBlockTemplate at ht
  rw [hp] at ht
  dsimp only at ht
  cases hf : finalizeTemplate env pl nh bl (assembleState env policy sourceTxns cb) with
  | error e =>
    rw [hf] at ht
    simp at ht
  | ok bt =>
    rw [hf] at ht
    unfold handleCreatedBlockTemplate at ht
    simp only [Option.some.injEq] at ht
    subst ht
    exact finalizeTemplate_ok env pl nh bl _ bt hf

/-- The final loop state seen from the initial one: the coinbase stays
the head of the block list and the seeded `-1` stays the head of the fee
ledger. -/
theorem assembleState_heads (env : Env) (policy : Policy)
    (sourceTxns : List TxDesc) (cb : Tx) :
    (∃ l, (assembleState env policy sourceTxns cb).blockTxns = cb :: l) ∧
    (∃ f, (assembleState env policy sourceTxns cb).txFees = (-1 : Int) :: f ∧
      (assembleState env policy sourceTxns cb).txFees.tail = f) := by
  unfold assembleState
  rw [selectLoopRun_eq]
  obtain ⟨l, f, s, hl, hf, hs⟩ := selectLoop_ledgers_extend env policy
    (initialLoopState env policy sourceTxns cb)
  refine ⟨⟨l, ?_⟩, ⟨f, ?_, ?_⟩⟩
  · rw [hl]
    rfl
  · rw [hf]
    rfl
  · rw [hf]
    rfl

/-- C4.  Neither the selection loop nor the post-loop fee fix-up of line
375 touches the coinbase transaction: the dormant line 374 that would
have added the fees to the coinbase output value is commented out, so
the template's transaction 0 is exactly the coinbase that
`createCoinbaseTx` returned (its output amounts are the subsidy values
it was created with), and the accumulated total is recorded only in fee
slot 0, the rest of the ledger being untouched by the fix-up. -/
theorem C4_coinbase_outputs_untouched (env : Env) (policy : Policy)
    (sourceTxns : List TxDesc) (parents : Option (List THash))
    (pl : List THash) (nh : Nat) (bl : Int) (cb : Tx) (t : BlockTemplate)
    (hp : prepareCoinbase env parents = .ok (pl, nh, bl, cb))
    (ht : (newBlockTemplate env policy sourceTxns parents).1 = some t) :
    t.blockTxns.head? = some cb ∧
    t.blockTxns.head?.map (fun tx => tx.txOut) = some cb.txOut ∧
    t.fees.head? = some (-(assembleState env policy sourceTxns cb).totalFees) ∧
    t.fees.tail = (assembleState env policy sourceTxns cb).txFees.tail := by
  have hchar := newBlockTemplate_ok env policy sourceTxns parents pl nh bl cb t hp ht
  obtain ⟨⟨l, hl⟩, ⟨f, hf, hftail⟩⟩ := assembleState_heads env policy sourceTxns cb
  subst hchar
  refine ⟨?_, ?_, ?_, ?_⟩
  · simp [hl]
  · simp [hl]
  · simp [hf]
  · simp [hf]

/-- C4 witness: the single-transaction run, whose returned template
keeps the coinbase `cbBase` at slot 0 and records the total `1000` only
in fee slot 0. -/
theorem C4_witness :
    ∃ t, (newBlockTemplate envBase polBase
        [{ tx := tx3, fee := 1000, feePerKB := 4000 }] none).1 = some t ∧
      t.blockTxns.head? = some cbBase := by
  cases hr : (newBlockTemplate envBase polBase
      [{ tx := tx3, fee := 1000, feePerKB := 4000 }] none).1 with
  | none =>
    exact absurd hr (by decide)
  | some t =>
    have h := C4_coinbase_outputs_untouched envBase polBase
      [{ tx := tx3, fee := 1000, feePerKB := 4000 }] none
      [1] 11 1 cbBase t rfl hr
    exact ⟨t, rfl, h.1⟩


/-- A dead outpoint for one assembly: the committed chain has no unspent
entry for it and the mempool does not hold its producing transaction.
The admission pass drops a candidate over such an input (lines 213-220),
and nothing during the assembly can make it spendable. -/
def BadPoint (env : Env) (p : OutPoint) : Prop :=
  (∀ e, env.chain p = some e → e.spent = true) ∧ env.haveTx p.hash = false

/-- A view in which every dead outpoint is absent or spent. -/
def ViewOK (env : Env) (v : UtxoView) : Prop :=
  ∀ p e, BadPoint env p → alookup v p = some e → e.spent = true

/-- A candidate with trustworthy metadata: it carries the transaction,
fee and fee density of a descriptor of the snapshot, and that
transaction is not a coinbase (scan lines 182-186 and 243-257). -/
def GoodCand (src : List TxDesc) (c : Cand) : Prop :=
  ∃ d ∈ src, c.tx = d.tx ∧ c.fee = d.fee ∧ c.feePerKB = d.feePerKB ∧
    d.tx.isCoinBase = false

/-- A ghost candidate: one dropped by the admission pass after partially
registering dependencies (the `continue mempoolLoop` of line 219), so
its fee metadata was never filled in; it owns at least one dead
input. -/
def GhostCand (env : Env) (src : List TxDesc) (c : Cand) : Prop :=
  (∃ d ∈ src, c.tx = d.tx ∧ d.tx.isCoinBase = false) ∧
    ∃ p ∈ c.tx.txIn, BadPoint env p

theorem fetchUtxoView_entries (env : Env) (tx : Tx) :
    ∀ pe ∈ fetchUtxoView env tx, env.chain pe.1 = some pe.2 := by
  unfold fetchUtxoView
  intro pe hpe
  obtain ⟨p, hp, hmap⟩ := List.mem_filterMap.mp hpe
  cases hc : env.chain p with
  | none =>
    rw [hc] at hmap
    exact absurd hmap (by simp)
  | some e =>
    rw [hc] at hmap
    simp only [Option.map_some', Option.some.injEq] at hmap
    obtain rfl := hmap.symm
    exact hc

theorem alookup_filterMap_chain (env : Env) (p : OutPoint) :
    ∀ ins : List OutPoint, p ∈ ins →
      alookup (ins.filterMap fun q => (env.chain q).map fun e => (q, e)) p =
        env.chain p := by
  have hnone : ∀ ins : List OutPoint, env.chain p = none →
      alookup (ins.filterMap fun q => (env.chain q).map fun e => (q, e)) p = none := by
    intro ins hc
    induction ins with
    | nil => simp [alookup]
    | cons q rest ih =>
      simp only [List.filterMap_cons]
      cases hq : env.chain q with
      | none => exact ih
      | some e =>
        simp only [Option.map_some']
        have hne : p ≠ q := by
          intro h
          rw [h, hq] at hc
          cases hc
        rw [alookup_cons_ne _ _ hne]
        exact ih
  intro ins hp
  induction ins with
  | nil => cases hp
  | cons q rest ih =>
    simp only [List.filterMap_cons]
    by_cases hpq : p = q
    · subst hpq
      cases hc : env.chain p with
      | none => exact hnone rest hc
      | some e =>
        simp only [Option.map_some']
        rw [alookup_cons_self]
    · rcases List.mem_cons.mp hp with h | h
      · exact absurd h hpq
      · cases hq : env.chain q with
        | none => exact ih h
        | some e =>
          simp only [Option.map_some']
          rw [alookup_cons_ne _ _ hpq]
          exact ih h

theorem alookup_fetchUtxoView (env : Env) (tx : Tx) (p : OutPoint)
    (hp : p ∈ tx.txIn) :
    alookup (fetchUtxoView env tx) p = env.chain p :=
  alookup_filterMap_chain env p tx.txIn hp

theorem scanInputs_dropped (env : Env) (utxos : UtxoView) (txHash : THash)
    (idx : Nat) :
    ∀ (inputs : List OutPoint) (dependers : Dependers) (dOn : List THash),
      (scanInputs env utxos txHash idx inputs dependers dOn).2.2 = true →
      ∃ p ∈ inputs, entryUnavailable (alookup utxos p) = true ∧
        env.haveTx p.hash = false := by
  intro inputs
  induction inputs with
  | nil =>
    intro dependers dOn h
    simp [scanInputs] at h
  | cons p rest ih =>
    intro dependers dOn h
    simp only [scanInputs] at h
    by_cases hu : entryUnavailable (alookup utxos p) = true
    · rw [if_pos hu] at h
      by_cases hh : env.haveTx p.hash = true
      · rw [if_pos hh] at h
        obtain ⟨q, hq, h1, h2⟩ := ih _ _ h
        exact ⟨q, List.mem_cons_of_mem _ hq, h1, h2⟩
      · exact ⟨p, List.mem_cons_self _ _, hu, by simpa using hh⟩
    · rw [if_neg hu] at h
      obtain ⟨q, hq, h1, h2⟩ := ih _ _ h
      exact ⟨q, List.mem_cons_of_mem _ hq, h1, h2⟩

/-- Inserting an entry whose key is not dead, or whose entry is spent,
preserves `ViewOK`. -/
theorem ViewOK_aupsert (env : Env) (v : UtxoView) (p : OutPoint)
    (e : UtxoEntry) (h : ViewOK env v)
    (hpe : BadPoint env p → e.spent = true) :
    ViewOK env (aupsert v p e) := by
  intro q eq hbad hlook
  by_cases hq : q = p
  · subst hq
    rw [alookup_aupsert_self] at hlook
    obtain rfl := Option.some.inj hlook
    exact hpe hbad
  · rw [alookup_aupsert_ne _ _ _ _ hq] at hlook
    exact h q eq hbad hlook

theorem ViewOK_merge (env : Env) (vB : UtxoView) :
    ∀ v : UtxoView, ViewOK env v →
      (∀ pe ∈ vB, BadPoint env pe.1 → pe.2.spent = true) →
      ViewOK env (mergeUtxoView v vB) := by
  unfold mergeUtxoView
  induction vB with
  | nil =>
    intro v hv _
    simpa using hv
  | cons pe rest ih =>
    intro v hv hB
    simp only [List.foldl_cons]
    have hstep : ViewOK env
        (match alookup v pe.1 with
          | none => aupsert v pe.1 pe.2
          | some entryA => if entryA.spent then aupsert v pe.1 pe.2 else v) := by
      cases hl : alookup v pe.1 with
      | none =>
        simp only [hl]
        exact ViewOK_aupsert env v pe.1 pe.2 hv (hB pe (List.mem_cons_self _ _))
      | some entryA =>
        simp only [hl]
        split
        · exact ViewOK_aupsert env v pe.1 pe.2 hv (hB pe (List.mem_cons_self _ _))
        · exact hv
    exact ih _ hstep (fun q hq => hB q (List.mem_cons_of_mem _ hq))

theorem ViewOK_fetch_merge (env : Env) (tx : Tx) (v : UtxoView)
    (hv : ViewOK env v) : ViewOK env (mergeUtxoView v (fetchUtxoView env tx)) := by
  refine ViewOK_merge env (fetchUtxoView env tx) v hv ?_
  intro pe hpe hbad
  have := fetchUtxoView_entries env tx pe hpe
  exact hbad.1 pe.2 this

/-- Spending entries preserves `ViewOK`: entries only become spent. -/
theorem ViewOK_spendFold (env : Env) (tx : Tx) :
    ∀ v : UtxoView, ViewOK env v →
      ViewOK env (tx.txIn.foldl
        (fun acc p =>
          match alookup acc p with
          | none => acc
          | some e => aupsert acc p { e with spent := true }) v) := by
  induction tx.txIn with
  | nil => intro v hv; simpa using hv
  | cons p rest ih =>
    intro v hv
    simp only [List.foldl_cons]
    apply ih
    cases hl : alookup v p with
    | none => simpa [hl] using hv
    | some e =>
      simp only [hl]
      exact ViewOK_aupsert env v p _ hv (fun _ => rfl)

/-- Adding the outputs of an in-mempool transaction preserves `ViewOK`:
the created outpoints carry the transaction's own hash, which the
mempool holds, so they are not dead. -/
theorem ViewOK_addTxOuts (env : Env) (tx : Tx) (hh : env.haveTx tx.hash = true) :
    ∀ v : UtxoView, ViewOK env v → ViewOK env (addTxOuts env v tx) := by
  unfold addTxOuts
  induction List.range tx.txOut.length with
  | nil => intro v hv; simpa using hv
  | cons i rest ih =>
    intro v hv
    simp only [List.foldl_cons]
    apply ih
    cases ho : tx.txOut[i]? with
    | none => simpa [ho] using hv
    | some out =>
      simp only [ho]
      split
      · exact hv
      · refine ViewOK_aupsert env v ⟨tx.hash, i⟩ _ hv ?_
        intro hbad
        exact absurd hh (by simp [hbad.2])

theorem ViewOK_spendTransaction (env : Env) (tx : Tx) (v : UtxoView)
    (hh : env.haveTx tx.hash = true) (hv : ViewOK env v) :
    ViewOK env (spendTransaction env v tx).1 := by
  unfold spendTransaction
  exact ViewOK_addTxOuts env tx hh _ (ViewOK_spendFold env tx v hv)


theorem badPoint_of_unavailable (env : Env) (tx : Tx) (p : OutPoint)
    (hp : p ∈ tx.txIn)
    (hu : entryUnavailable (alookup (fetchUtxoView env tx) p) = true)
    (hh : env.haveTx p.hash = false) : BadPoint env p := by
  refine ⟨?_, hh⟩
  intro e hc
  rw [alookup_fetchUtxoView env tx p hp, hc] at hu
  simpa [entryUnavailable] using hu

/-- Invariant established by the admission pass: queued candidates carry
their descriptor's metadata, waiting candidates are either such or
ghosts with a dead input, and the block view never presents a dead
outpoint as spendable. -/
def ScanInv (env : Env) (src : List TxDesc) (s : ScanState) : Prop :=
  (∀ c ∈ s.queue, GoodCand src c) ∧
  (∀ e ∈ s.waiting, GoodCand src e.2.1 ∨ GhostCand env src e.2.1) ∧
  ViewOK env s.blockUtxos

theorem scanTx_preserves (env : Env) (src : List TxDesc) (st : ScanState)
    (idx : Nat) (d : TxDesc) (hd : d ∈ src) (h : ScanInv env src st) :
    ScanInv env src (scanTx env st idx d) := by
  obtain ⟨hque, hwait, hview⟩ := h
  unfold scanTx
  by_cases hcb : d.tx.isCoinBase = true
  · rw [if_pos hcb]
    exact ⟨hque, hwait, hview⟩
  rw [if_neg hcb]
  by_cases hfin : env.isFinalized d.tx = true
  · rw [if_neg (by simpa using hfin)]
    by_cases hfetch : env.fetchViewFails d.tx = true
    · rw [if_pos hfetch]
      exact ⟨hque, hwait, hview⟩
    rw [if_neg hfetch]
    dsimp only
    by_cases hdrop :
        (scanInputs env (fetchUtxoView env d.tx) d.tx.hash idx d.tx.txIn
          st.dependers []).2.2 = true
    · rw [if_pos hdrop]
      refine ⟨hque, ?_, hview⟩
      intro e he
      by_cases hdep :
          (scanInputs env (fetchUtxoView env d.tx) d.tx.hash idx d.tx.txIn
            st.dependers []).2.1.isEmpty = true
      · rw [if_pos hdep] at he
        exact hwait e he
      · rw [if_neg hdep] at he
        rcases List.mem_append.mp he with h1 | h1
        · exact hwait e h1
        · simp only [List.mem_singleton] at h1
          subst h1
          right
          obtain ⟨p, hp, hu, hh⟩ := scanInputs_dropped env (fetchUtxoView env d.tx)
            d.tx.hash idx d.tx.txIn st.dependers [] hdrop
          refine ⟨⟨d, hd, rfl, by simpa using hcb⟩, p, hp, ?_⟩
          exact badPoint_of_unavailable env d.tx p hp hu hh
    · rw [if_neg hdrop]
      refine ⟨?_, ?_, ?_⟩
      · intro c hc
        dsimp only at hc
        by_cases hdep :
            (scanInputs env (fetchUtxoView env d.tx) d.tx.hash idx d.tx.txIn
              st.dependers []).2.1.isEmpty = true
        · rw [if_pos hdep] at hc
          rcases List.mem_append.mp hc with h1 | h1
          · exact hque c h1
          · simp only [List.mem_singleton] at h1
            subst h1
            exact ⟨d, hd, rfl, rfl, rfl, by simpa using hcb⟩
        · rw [if_neg hdep] at hc
          exact hque c hc
      · intro e he
        dsimp only at he
        by_cases hdep :
            (scanInputs env (fetchUtxoView env d.tx) d.tx.hash idx d.tx.txIn
              st.dependers []).2.1.isEmpty = true
        · rw [if_pos hdep] at he
          exact hwait e he
        · rw [if_neg hdep] at he
          rcases List.mem_append.mp he with h1 | h1
          · exact hwait e h1
          · simp only [List.mem_singleton] at h1
            subst h1
            left
            exact ⟨d, hd, rfl, rfl, rfl, by simpa using hcb⟩
      · exact ViewOK_fetch_merge env d.tx st.blockUtxos hview
  · rw [if_pos (by simpa using hfin)]
    exact ⟨hque, hwait, hview⟩

theorem scanMempool_go_inv (env : Env) (src : List TxDesc) :
    ∀ (descs : List TxDesc) (idx : Nat) (st : ScanState),
      (∀ d ∈ descs, d ∈ src) → ScanInv env src st →
      ScanInv env src (scanMempool.go env idx descs st) := by
  intro descs
  induction descs with
  | nil =>
    intro idx st _ h
    exact h
  | cons d rest ih =>
    intro idx st hsub h
    simp only [scanMempool.go]
    exact ih (idx + 1) (scanTx env st idx d)
      (fun x hx => hsub x (List.mem_cons_of_mem _ hx))
      (scanTx_preserves env src st idx d (hsub d (List.mem_cons_self _ _)) h)

theorem scanMempool_inv (env : Env) (src : List TxDesc) :
    ScanInv env src (scanMempool env src) := by
  unfold scanMempool
  refine scanMempool_go_inv env src src 0 _ (fun d hd => hd) ?_
  refine ⟨?_, ?_, ?_⟩
  · intro c hc
    cases hc
  · intro e he
    cases he
  · intro p e _ hl
    simp [alookup] at hl


/-- The whole-run invariant of the selection loop: the block view stays
safe, every queued or waiting candidate is a descriptor candidate or a
ghost, the block is the coinbase followed by non-coinbase transactions
whose fee-ledger entries are their descriptors' fees (with the running
total their sum and the dummy `-1` still in slot 0), the tracked block
size is header overhead plus the serialized transactions and within the
cap, and the sigop accumulator is the ledger sum and within its cap. -/
def LoopInv (env : Env) (policy : Policy) (src : List TxDesc) (cb : Tx)
    (st : LoopState) : Prop :=
  ViewOK env st.blockUtxos ∧
  (∀ c ∈ st.queue, GoodCand src c ∨ GhostCand env src c) ∧
  (∀ e ∈ st.waiting, GoodCand src e.2.1 ∨ GhostCand env src e.2.1) ∧
  (∃ tl ftl, st.blockTxns = cb :: tl ∧ st.txFees = (-1 : Int) :: ftl ∧
    List.Forall₂ (fun tx f => ∃ d ∈ src, tx = d.tx ∧ f = d.fee) tl ftl ∧
    (∀ tx ∈ tl, tx.isCoinBase = false) ∧
    st.totalFees = ftl.sum) ∧
  st.blockSize = env.blockHeaderOverhead +
    ((st.blockTxns.map fun t => t.serializeSize).sum) ∧
  st.blockSize ≤ policy.BlockMaxSize ∧
  st.blockSigOpCost = st.txSigOpCosts.sum ∧
  st.blockSigOpCost ≤ env.maxSigOpsPerBlock

theorem selectLoop_LoopInv (env : Env) (policy : Policy) (src : List TxDesc)
    (cb : Tx)
    (Hchk : ∀ tx v, env.checkTransactionInputs tx v = true →
      ∀ p ∈ tx.txIn, ∃ e, alookup v p = some e ∧ e.spent = false)
    (Hhave : ∀ d ∈ src, env.haveTx d.tx.hash = true)
    (Hsize : ∀ d ∈ src, d.tx.serializeSize < U32)
    (HmaxU : policy.BlockMaxSize < U32)
    (st : LoopState) (h : LoopInv env policy src cb st) :
    LoopInv env policy src cb (selectLoop env policy st) := by
  refine selectLoop_invariant env policy (LoopInv env policy src cb) ?_ ?_ st h
  · intro s c rest hq hP
    obtain ⟨hview, hq2, hw, hblk, hsz, hszle, hsig, hsigle⟩ := hP
    refine ⟨hview, ?_, hw, hblk, hsz, hszle, hsig, hsigle⟩
    intro x hx
    have hx2 : x ∈ c :: rest := pickMax_snd_subset s.sortedByFee c rest x hx
    rw [← hq] at hx2
    exact hq2 x hx2
  · intro s c rest hq hsg hog hchk hP
    obtain ⟨hview, hq2, hw, ⟨tl, ftl, hbt, htf, hfa, hnc, htot⟩, hsz, hszle, hsig, hsigle⟩ := hP
    have hmem : (pickMax s.sortedByFee c rest).1 ∈ s.queue := by
      rw [hq]
      exact pickMax_fst_mem _ _ _
    have hgood : GoodCand src (pickMax s.sortedByFee c rest).1 := by
      rcases hq2 _ hmem with hg | hg
      · exact hg
      · exfalso
        obtain ⟨_, p, hp, hbad⟩ := hg
        obtain ⟨e, hle, hsp⟩ := Hchk _ s.blockUtxos hchk p hp
        have := hview p e hbad hle
        simp [this] at hsp
    obtain ⟨d, hd, htx, hfee, hfpk, hncb⟩ := hgood
    have hqsub : ∀ x ∈ (pickMax s.sortedByFee c rest).2,
        GoodCand src x ∨ GhostCand env src x := by
      intro x hx
      have hx2 : x ∈ c :: rest := pickMax_snd_subset s.sortedByFee c rest x hx
      rw [← hq] at hx2
      exact hq2 x hx2
    have hrel := releaseDeps_preserve
      (fun x => GoodCand src x ∨ GhostCand env src x)
      (pickMax s.sortedByFee c rest).1.tx.hash
      ((alookup s.dependers (pickMax s.sortedByFee c rest).1.tx.hash).getD [])
      s.waiting (pickMax s.sortedByFee c rest).2 hw hqsub
    have hU : U32 = 4294967296 := by norm_num [U32]
    have htsize : (pickMax s.sortedByFee c rest).1.tx.serializeSize < U32 := by
      rw [htx]
      exact Hsize d hd
    have hsg2 : s.blockSize ≤ blockPlusTxSize s (pickMax s.sortedByFee c rest).1.tx ∧
        blockPlusTxSize s (pickMax s.sortedByFee c rest).1.tx < policy.BlockMaxSize := by
      unfold sizeGuard at hsg
      push_neg at hsg
      exact ⟨le_of_not_lt (fun hlt => absurd hlt (by omega)), by omega⟩
    have hbps : blockPlusTxSize s (pickMax s.sortedByFee c rest).1.tx =
        s.blockSize + (pickMax s.sortedByFee c rest).1.tx.serializeSize := by
      unfold blockPlusTxSize at hsg2 ⊢
      rw [hU] at *
      omega
    have hog2 : s.blockSigOpCost + env.countSigOps (pickMax s.sortedByFee c rest).1.tx ≤
        env.maxSigOpsPerBlock := by
      unfold sigOpGuard at hog
      push_neg at hog
      exact hog.2
    refine ⟨?_, ?_, ?_, ?_, ?_, ?_, ?_, ?_⟩
    · exact ViewOK_spendTransaction env _ s.blockUtxos
        (by rw [htx]; exact Hhave d hd) hview
    · exact hrel.2
    · exact hrel.1
    · refine ⟨tl ++ [(pickMax s.sortedByFee c rest).1.tx],
        ftl ++ [(pickMax s.sortedByFee c rest).1.fee], ?_, ?_, ?_, ?_, ?_⟩
      · simp [includeTx, hbt]
      · simp [includeTx, htf]
      · exact List.rel_append hfa
          (List.forall₂_cons.mpr ⟨⟨d, hd, htx, hfee⟩, List.Forall₂.nil⟩)
      · intro tx hx
        rcases List.mem_append.mp hx with h1 | h1
        · exact hnc tx h1
        · simp only [List.mem_singleton] at h1
          subst h1
          rw [htx]
          exact hncb
      · simp [includeTx, htot]
    · show blockPlusTxSize s (pickMax s.sortedByFee c rest).1.tx =
        env.blockHeaderOverhead +
          (((s.blockTxns ++ [(pickMax s.sortedByFee c rest).1.tx]).map
            fun t => t.serializeSize).sum)
      rw [hbps, hsz]
      simp
      omega
    · show blockPlusTxSize s (pickMax s.sortedByFee c rest).1.tx ≤ policy.BlockMaxSize
      exact le_of_lt hsg2.2
    · show s.blockSigOpCost + env.countSigOps (pickMax s.sortedByFee c rest).1.tx =
        ((s.txSigOpCosts ++ [env.countSigOps (pickMax s.sortedByFee c rest).1.tx]).sum)
      rw [hsig]
      simp
    · exact hog2


theorem initial_LoopInv (env : Env) (policy : Policy) (src : List TxDesc)
    (cb : Tx)
    (hcb : env.blockHeaderOverhead + cb.serializeSize ≤ policy.BlockMaxSize)
    (HmaxU : policy.BlockMaxSize < U32)
    (hsig : env.countSigOps cb ≤ env.maxSigOpsPerBlock) :
    LoopInv env policy src cb (initialLoopState env policy src cb) := by
  obtain ⟨hque, hwait, hview⟩ := scanMempool_inv env src
  have hU : U32 = 4294967296 := by norm_num [U32]
  have hbs : (initialLoopState env policy src cb).blockSize =
      env.blockHeaderOverhead + cb.serializeSize := by
    show (env.blockHeaderOverhead % U32 + cb.serializeSize % U32) % U32 =
      env.blockHeaderOverhead + cb.serializeSize
    rw [hU] at HmaxU ⊢
    omega
  refine ⟨hview, ?_, ?_,
    ⟨[], [], rfl, rfl, List.Forall₂.nil, by simp, rfl⟩, ?_, ?_, ?_, hsig⟩
  · intro c hc
    exact Or.inl (hque c hc)
  · intro e he
    exact hwait e he
  · rw [hbs]
    show env.blockHeaderOverhead + cb.serializeSize =
      env.blockHeaderOverhead + (([cb].map fun t => t.serializeSize).sum)
    simp
  · rw [hbs]
    exact hcb
  · show env.countSigOps cb = ([env.countSigOps cb]).sum
    simp

/-- The sub-invariant needed for the fee-ledger claim alone (no size or
sigop bookkeeping). -/
def FeeInv (env : Env) (src : List TxDesc) (cb : Tx) (st : LoopState) : Prop :=
  ViewOK env st.blockUtxos ∧
  (∀ c ∈ st.queue, GoodCand src c ∨ GhostCand env src c) ∧
  (∀ e ∈ st.waiting, GoodCand src e.2.1 ∨ GhostCand env src e.2.1) ∧
  (∃ tl ftl, st.blockTxns = cb :: tl ∧ st.txFees = (-1 : Int) :: ftl ∧
    List.Forall₂ (fun tx f => ∃ d ∈ src, tx = d.tx ∧ f = d.fee) tl ftl ∧
    st.totalFees = ftl.sum)

theorem selectLoop_FeeInv (env : Env) (policy : Policy) (src : List TxDesc)
    (cb : Tx)
    (Hchk : ∀ tx v, env.checkTransactionInputs tx v = true →
      ∀ p ∈ tx.txIn, ∃ e, alookup v p = some e ∧ e.spent = false)
    (Hhave : ∀ d ∈ src, env.haveTx d.tx.hash = true)
    (st : LoopState) (h : FeeInv env src cb st) :
    FeeInv env src cb (selectLoop env policy st) := by
  refine selectLoop_invariant env policy (FeeInv env src cb) ?_ ?_ st h
  · intro s c rest hq hP
    obtain ⟨hview, hq2, hw, hblk⟩ := hP
    refine ⟨hview, ?_, hw, hblk⟩
    intro x hx
    have hx2 : x ∈ c :: rest := pickMax_snd_subset s.sortedByFee c rest x hx
    rw [← hq] at hx2
    exact hq2 x hx2
  · intro s c rest hq _ _ hchk hP
    obtain ⟨hview, hq2, hw, ⟨tl, ftl, hbt, htf, hfa, htot⟩⟩ := hP
    have hmem : (pickMax s.sortedByFee c rest).1 ∈ s.queue := by
      rw [hq]
      exact pickMax_fst_mem _ _ _
    have hgood : GoodCand src (pickMax s.sortedByFee c rest).1 := by
      rcases hq2 _ hmem with hg | hg
      · exact hg
      · exfalso
        obtain ⟨_, p, hp, hbad⟩ := hg
        obtain ⟨e, hle, hsp⟩ := Hchk _ s.blockUtxos hchk p hp
        have := hview p e hbad hle
        simp [this] at hsp
    obtain ⟨d, hd, htx, hfee, hfpk, hncb⟩ := hgood
    have hqsub : ∀ x ∈ (pickMax s.sortedByFee c rest).2,
        GoodCand src x ∨ GhostCand env src x := by
      intro x hx
      have hx2 : x ∈ c :: rest := pickMax_snd_subset s.sortedByFee c rest x hx
      rw [← hq] at hx2
      exact hq2 x hx2
    have hrel := releaseDeps_preserve
      (fun x => GoodCand src x ∨ GhostCand env src x)
      (pickMax s.sortedByFee c rest).1.tx.hash
      ((alookup s.dependers (pickMax s.sortedByFee c rest).1.tx.hash).getD [])
      s.waiting (pickMax s.sortedByFee c rest).2 hw hqsub
    refine ⟨?_, hrel.2, hrel.1, ?_⟩
    · exact ViewOK_spendTransaction env _ s.blockUtxos
        (by rw [htx]; exact Hhave d hd) hview
    · refine ⟨tl ++ [(pickMax s.sortedByFee c rest).1.tx],
        ftl ++ [(pickMax s.sortedByFee c rest).1.fee], ?_, ?_, ?_, ?_⟩
      · simp [includeTx, hbt]
      · simp [includeTx, htf]
      · exact List.rel_append hfa
          (List.forall₂_cons.mpr ⟨⟨d, hd, htx, hfee⟩, List.Forall₂.nil⟩)
      · simp [includeTx, htot]

theorem initial_FeeInv (env : Env) (policy : Policy) (src : List TxDesc)
    (cb : Tx) : FeeInv env src cb (initialLoopState env policy src cb) := by
  obtain ⟨hque, hwait, hview⟩ := scanMempool_inv env src
  refine ⟨hview, ?_, ?_, ⟨[], [], rfl, rfl, List.Forall₂.nil, rfl⟩⟩
  · intro c hc
    exact Or.inl (hque c hc)
  · intro e he
    exact hwait e he


/-- A policy whose maximum block size is below the header-plus-coinbase
overhead. -/
def polC2 : Policy where
  BlockMinSize := 0
  BlockMaxSize := 0
  BlockPrioritySize := 0
  TxMinFreeFee := 0

/-- C2 counterexample.  The loop guard of line 286 bounds only what the
loop adds; nothing checks the initial header-plus-coinbase size against
`BlockMaxSize`.  With `BlockMaxSize = 0` the empty-mempool assembly
still returns a template, whose serialized size 150 exceeds the cap. -/
theorem C2_counterexample_template_exceeds_max :
    ((newBlockTemplate envBase polC2 [] none).1.map
      fun t => blockSerializedSize envBase t.blockTxns) = some 150 ∧
    150 > polC2.BlockMaxSize ∧
    (newBlockTemplate envBase polC2 [] none).2 = none := by
  refine ⟨by decide, by decide, by decide⟩

/-- C2 amended.  Provided the policy cap is a `uint32` value, the
header-plus-coinbase size fits the cap and the coinbase sigop cost fits
the sigop cap — the conditions the code assumes rather than checks —
every returned template satisfies the claimed invariants: serialized
size at most `BlockMaxSize`, ledger sigop total at most the chain's
maximum, the created coinbase at index 0, and no other coinbase in the
block.  The oracle hypotheses pin the documented behaviour of the
external collaborators: `CheckTransactionInputs` accepts only
transactions whose inputs are unspent in the view, and the mempool holds
every snapshot transaction. -/
theorem C2_amended_template_invariants (env : Env) (policy : Policy)
    (src : List TxDesc) (parents : Option (List THash))
    (pl : List THash) (nh : Nat) (bl : Int) (cb : Tx) (t : BlockTemplate)
    (Hchk : ∀ tx v, env.checkTransactionInputs tx v = true →
      ∀ p ∈ tx.txIn, ∃ e, alookup v p = some e ∧ e.spent = false)
    (Hhave : ∀ d ∈ src, env.haveTx d.tx.hash = true)
    (Hsize : ∀ d ∈ src, d.tx.serializeSize < U32)
    (HmaxU : policy.BlockMaxSize < U32)
    (hcb : env.blockHeaderOverhead + cb.serializeSize ≤ policy.BlockMaxSize)
    (hsig : env.countSigOps cb ≤ env.maxSigOpsPerBlock)
    (hcbflag : cb.isCoinBase = true)
    (hp : prepareCoinbase env parents = .ok (pl, nh, bl, cb))
    (ht : (newBlockTemplate env policy src parents).1 = some t) :
    blockSerializedSize env t.blockTxns ≤ policy.BlockMaxSize ∧
    t.sigOpCounts.sum ≤ env.maxSigOpsPerBlock ∧
    t.blockTxns.head? = some cb ∧ cb.isCoinBase = true ∧
    (∀ tx ∈ t.blockTxns.tail, tx.isCoinBase = false) := by
  have hchar := newBlockTemplate_ok env policy src parents pl nh bl cb t hp ht
  have hinv := selectLoop_LoopInv env policy src cb Hchk Hhave Hsize HmaxU
    (initialLoopState env policy src cb)
    (initial_LoopInv env policy src cb hcb HmaxU hsig)
  have hair : assembleState env policy src cb =
      selectLoop env policy (initialLoopState env policy src cb) := by
    unfold assembleState
    exact selectLoopRun_eq _ _ _
  rw [← hair] at hinv
  obtain ⟨hview, hq2, hw, ⟨tl, ftl, hbt, htf, hfa, hnc, htot⟩, hsz, hszle,
    hsigeq, hsigle⟩ := hinv
  subst hchar
  refine ⟨?_, ?_, ?_, hcbflag, ?_⟩
  · show blockSerializedSize env (assembleState env policy src cb).blockTxns ≤
      policy.BlockMaxSize
    unfold blockSerializedSize
    rw [← hsz]
    exact hszle
  · show (assembleState env policy src cb).txSigOpCosts.sum ≤ env.maxSigOpsPerBlock
    rw [← hsigeq]
    exact hsigle
  · show (assembleState env policy src cb).blockTxns.head? = some cb
    rw [hbt]
    rfl
  · show ∀ tx ∈ (assembleState env policy src cb).blockTxns.tail,
      tx.isCoinBase = false
    rw [hbt]
    exact hnc

/-- The fixture input checker is sound: it accepts a transaction only
when every input has an unspent entry in the view. -/
theorem envBase_check_sound (tx : Tx) (v : UtxoView)
    (h : envBase.checkTransactionInputs tx v = true) :
    ∀ p ∈ tx.txIn, ∃ e, alookup v p = some e ∧ e.spent = false := by
  intro p hp
  have h2 : (tx.txIn.all fun q =>
      match alookup v q with
      | some e => !e.spent
      | none => false) = true := h
  have h3 := List.all_eq_true.mp h2 p hp
  cases hl : alookup v p with
  | none =>
    rw [hl] at h3
    cases h3
  | some e =>
    rw [hl] at h3
    simp only [Bool.not_eq_true'] at h3
    exact ⟨e, rfl, h3⟩

/-- C2 witness of the amended claim: the single-transaction run with a
generous cap satisfies all the invariants. -/
theorem C2_amended_witness :
    ∃ t, (newBlockTemplate envBase polBase
        [{ tx := tx3, fee := 1000, feePerKB := 4000 }] none).1 = some t ∧
      blockSerializedSize envBase t.blockTxns ≤ polBase.BlockMaxSize ∧
      t.blockTxns.head? = some cbBase := by
  cases hr : (newBlockTemplate envBase polBase
      [{ tx := tx3, fee := 1000, feePerKB := 4000 }] none).1 with
  | none => exact absurd hr (by decide)
  | some t =>
    have h := C2_amended_template_invariants envBase polBase
      [{ tx := tx3, fee := 1000, feePerKB := 4000 }] none
      [1] 11 1 cbBase t envBase_check_sound (by decide) (by decide)
      (by decide) (by decide) (by decide) (by decide) rfl hr
    exact ⟨t, rfl, h.1, h.2.2.1⟩

/-- C3.  After the loop the fix-up of line 375 stores the negated
running total in fee slot 0; the running total is the sum of the fees
appended at line 355, which (under the documented behaviour of
`CheckTransactionInputs` and of the mempool, which exclude the
zero-filled ghost candidates from inclusion) are the mempool-reported
fees of the included transactions, position by position. -/
theorem C3_fee_ledger_correct (env : Env) (policy : Policy)
    (src : List TxDesc) (parents : Option (List THash))
    (pl : List THash) (nh : Nat) (bl : Int) (cb : Tx) (t : BlockTemplate)
    (Hchk : ∀ tx v, env.checkTransactionInputs tx v = true →
      ∀ p ∈ tx.txIn, ∃ e, alookup v p = some e ∧ e.spent = false)
    (Hhave : ∀ d ∈ src, env.haveTx d.tx.hash = true)
    (hp : prepareCoinbase env parents = .ok (pl, nh, bl, cb))
    (ht : (newBlockTemplate env policy src parents).1 = some t) :
    t.fees.head? = some (-(t.fees.tail.sum)) ∧
    List.Forall₂ (fun tx f => ∃ d ∈ src, tx = d.tx ∧ f = d.fee)
      t.blockTxns.tail t.fees.tail := by
  have hchar := newBlockTemplate_ok env policy src parents pl nh bl cb t hp ht
  have hinv := selectLoop_FeeInv env policy src cb Hchk Hhave
    (initialLoopState env policy src cb) (initial_FeeInv env policy src cb)
  have hair : assembleState env policy src cb =
      selectLoop env policy (initialLoopState env policy src cb) := by
    unfold assembleState
    exact selectLoopRun_eq _ _ _
  rw [← hair] at hinv
  obtain ⟨hview, hq2, hw, ⟨tl, ftl, hbt, htf, hfa, htot⟩⟩ := hinv
  subst hchar
  constructor
  · show (((assembleState env policy src cb).txFees.set 0
        (-(assembleState env policy src cb).totalFees)).head?) =
      some (-((((assembleState env policy src cb).txFees.set 0
        (-(assembleState env policy src cb).totalFees)).tail).sum))
    rw [htf, htot]
    simp
  · show List.Forall₂ (fun tx f => ∃ d ∈ src, tx = d.tx ∧ f = d.fee)
      (assembleState env policy src cb).blockTxns.tail
      (((assembleState env policy src cb).txFees.set 0
        (-(assembleState env policy src cb).totalFees)).tail)
    rw [hbt, htf]
    simpa using hfa

/-- C3 witness: the single-transaction run, whose ledger is
`[-1000, 1000]` with slot 0 the negated sum of the rest and slot 1 the
mempool fee of the block's transaction 1. -/
theorem C3_witness :
    ∃ t, (newBlockTemplate envBase polBase
        [{ tx := tx3, fee := 1000, feePerKB := 4000 }] none).1 = some t ∧
      t.fees.head? = some (-(t.fees.tail.sum)) := by
  cases hr : (newBlockTemplate envBase polBase
      [{ tx := tx3, fee := 1000, feePerKB := 4000 }] none).1 with
  | none => exact absurd hr (by decide)
  | some t =>
    have h := C3_fee_ledger_correct envBase polBase
      [{ tx := tx3, fee := 1000, feePerKB := 4000 }] none
      [1] 11 1 cbBase t envBase_check_sound (by decide) rfl hr
    exact ⟨t, rfl, h.1⟩

end QitmeerMining
